import Mathlib

/-!
Verification development for the Meteora DLMM position simulator core.

The TypeScript source is embedded shallowly:
* JavaScript `number` arithmetic is modelled by exact rational arithmetic (`ℚ`);
  the spec's numeric tolerances (1e-9 relative, 1e-12 dust) are kept in the
  statements, while the exact model makes the underlying identities exact.
* `Math.log`-based computations are modelled with `Real.log` on the casts of the
  rational inputs; `Math.round` is Mathlib's `round` (round half towards +∞,
  which agrees with JavaScript `Math.round` on all inputs).
* JavaScript `Map`s keyed by bin id are modelled as association lists built in
  the same insertion order; `Array.prototype.sort` (stable) is modelled by
  `List.insertionSort` (stable).
* Functions that never throw are total functions here; the sentinel returns of
  the source are reproduced literally.
-/

namespace Meteora

/-- Tokens held by a bin: the base leg or the quote (numeraire) leg. -/
inductive TokenType where
  | base : TokenType
  | quote : TokenType
deriving DecidableEq

/-- Distribution strategies, from `type Strategy = 'spot' | 'bid-ask' | 'curve'`. -/
inductive Strategy where
  | spot : Strategy
  | bidAsk : Strategy
  | curve : Strategy
deriving DecidableEq

/-- Mirror of `interface SimulationParams` (optional fields stay optional;
`getInitialBins` applies the source defaults 9 / 6 / true). -/
structure SimulationParams where
  binStep : ℚ
  initialPrice : ℚ
  baseAmount : ℚ
  quoteAmount : ℚ
  lowerPrice : ℚ
  upperPrice : ℚ
  strategy : Strategy
  baseDecimals : Option ℕ
  quoteDecimals : Option ℕ
  applyDecimalAdjustment : Option Bool

/-- Mirror of `interface SimulatedBin`. -/
structure SimulatedBin where
  id : ℤ
  price : ℚ
  pricePerLamport : ℚ
  initialTokenType : TokenType
  initialAmount : ℚ
  initialValueInQuote : ℚ
  displayValue : ℚ
  currentTokenType : TokenType
  currentAmount : ℚ
  currentValueInQuote : ℚ
deriving DecidableEq

/-- Mirror of `interface Analysis`. -/
structure Analysis where
  totalValueInQuote : ℚ
  totalBase : ℚ
  totalQuote : ℚ
  totalBins : ℕ
  baseBins : ℕ
  quoteBins : ℕ
deriving DecidableEq

/-- Reference bin id whose undeflated price is 1 (`REFERENCE_BIN_ID = 262144`). -/
def REFERENCE_BIN_ID : ℤ := 262144

/-- Price multiplier between adjacent bins: `basis = 1 + binStep / 10000`. -/
def binBasis (binStep : ℚ) : ℚ := 1 + binStep / 10000

/-- Decimal adjustment factor `10 ^ (baseDecimals - quoteDecimals)`. -/
def decimalFactor (baseDecimals quoteDecimals : ℕ) : ℚ :=
  (10 : ℚ) ^ ((baseDecimals : ℤ) - (quoteDecimals : ℤ))

/-- Embedding of `getPriceFromBinId` (dlmm-sdk-wrapper): the price per lamport
is the basis raised to `binId - REFERENCE_BIN_ID`; it is multiplied by the
decimal factor exactly when the adjustment flag is set. -/
def getPriceFromBinId (binId : ℤ) (binStep : ℚ) (baseDecimals quoteDecimals : ℕ)
    (applyDecimalAdjustment : Bool) : ℚ :=
  if applyDecimalAdjustment then
    binBasis binStep ^ (binId - REFERENCE_BIN_ID) * decimalFactor baseDecimals quoteDecimals
  else binBasis binStep ^ (binId - REFERENCE_BIN_ID)

/-- The `pricePerLamport` value computed inside `getBinIdFromPrice`:
the input price with the decimal adjustment reversed. -/
def lamportOf (price : ℚ) (baseDecimals quoteDecimals : ℕ) (applyDecimalAdjustment : Bool) : ℚ :=
  if applyDecimalAdjustment then
    price * (10 : ℚ) ^ (-((baseDecimals : ℤ) - (quoteDecimals : ℤ)))
  else price

/-- Embedding of `getBinIdFromPrice` (dlmm-sdk-wrapper): sentinel 0 on
non-positive price or bin step, otherwise the rounded logarithm (base `basis`)
of the decimal-reversed price, shifted by the reference bin id. -/
noncomputable def getBinIdFromPrice (price binStep : ℚ) (baseDecimals quoteDecimals : ℕ)
    (applyDecimalAdjustment : Bool) : ℤ :=
  if price ≤ 0 ∨ binStep ≤ 0 then 0
  else
    round (Real.log ((lamportOf price baseDecimals quoteDecimals applyDecimalAdjustment : ℚ) : ℝ) /
        Real.log ((binBasis binStep : ℚ) : ℝ)) + REFERENCE_BIN_ID

/-- Embedding of `isValidBinId`: the id fits in a signed 32-bit integer. -/
def isValidBinId (binId : ℤ) : Prop := -2147483648 ≤ binId ∧ binId ≤ 2147483647

instance (binId : ℤ) : Decidable (isValidBinId binId) := by
  unfold isValidBinId; infer_instance

/-! ### Basic facts about the price model -/

theorem one_lt_binBasis {binStep : ℚ} (h : 0 < binStep) : 1 < binBasis binStep := by
  unfold binBasis; nlinarith

theorem binBasis_pos {binStep : ℚ} (h : 0 < binStep) : 0 < binBasis binStep :=
  lt_trans one_pos (one_lt_binBasis h)

theorem decimalFactor_pos (bd qd : ℕ) : 0 < decimalFactor bd qd :=
  zpow_pos (by norm_num) _

theorem getPriceFromBinId_pos {binStep : ℚ} (h : 0 < binStep) (binId : ℤ) (bd qd : ℕ)
    (adj : Bool) : 0 < getPriceFromBinId binId binStep bd qd adj := by
  unfold getPriceFromBinId
  have hb := binBasis_pos h
  have hz : 0 < binBasis binStep ^ (binId - REFERENCE_BIN_ID) := zpow_pos hb _
  cases adj with
  | false => simpa using hz
  | true => simpa using mul_pos hz (decimalFactor_pos bd qd)

theorem lamportOf_pos {price : ℚ} (hp : 0 < price) (bd qd : ℕ) (adj : Bool) :
    0 < lamportOf price bd qd adj := by
  unfold lamportOf
  cases adj with
  | false => simpa using hp
  | true => simpa using mul_pos hp (zpow_pos (show (0:ℚ) < 10 by norm_num) _)

/-- Central rounding lemma: if `b ^ (2k-1) ≤ p² < b ^ (2k+1)` (all in `ℚ`,
with `1 < b`, `0 < p`) then the rounded base-`b` logarithm of `p` is `k`.
The squared form keeps the hypotheses inside rational arithmetic. -/
theorem round_log_div_eq {b p : ℚ} (hb : 1 < b) (hp : 0 < p) (k : ℤ)
    (h1 : b ^ (2 * k - 1) ≤ p ^ (2 : ℕ)) (h2 : p ^ (2 : ℕ) < b ^ (2 * k + 1)) :
    round (Real.log (p : ℝ) / Real.log (b : ℝ)) = k := by
  have hbR : (1 : ℝ) < (b : ℝ) := by exact_mod_cast hb
  have hpR : (0 : ℝ) < (p : ℝ) := by exact_mod_cast hp
  have hb0 : (0 : ℝ) < (b : ℝ) := lt_trans one_pos hbR
  have hlb : 0 < Real.log (b : ℝ) := Real.log_pos hbR
  set L : ℝ := Real.log (p : ℝ) / Real.log (b : ℝ) with hL
  have hlp : Real.log (p : ℝ) = L * Real.log (b : ℝ) := by
    field_simp [hL]
  have h1R : ((b : ℝ)) ^ (2 * k - 1) ≤ ((p : ℝ)) ^ (2 : ℕ) := by exact_mod_cast h1
  have h2R : ((p : ℝ)) ^ (2 : ℕ) < ((b : ℝ)) ^ (2 * k + 1) := by exact_mod_cast h2
  have hzp1 : (0 : ℝ) < (b : ℝ) ^ (2 * k - 1) := zpow_pos hb0 _
  have hpp : (0 : ℝ) < (p : ℝ) ^ (2 : ℕ) := pow_pos hpR _
  have hlog1 : Real.log ((b : ℝ) ^ (2 * k - 1)) ≤ Real.log ((p : ℝ) ^ (2 : ℕ)) :=
    (Real.log_le_log_iff hzp1 hpp).mpr h1R
  have hlog2 : Real.log ((p : ℝ) ^ (2 : ℕ)) < Real.log ((b : ℝ) ^ (2 * k + 1)) :=
    (Real.log_lt_log_iff hpp (zpow_pos hb0 _)).mpr h2R
  rw [Real.log_zpow, Real.log_pow, hlp] at hlog1 hlog2
  have hk1 : ((2 * k - 1 : ℤ) : ℝ) ≤ 2 * L := by
    refine le_of_mul_le_mul_right ?_ hlb
    calc ((2 * k - 1 : ℤ) : ℝ) * Real.log b ≤ (2 : ℕ) * (L * Real.log b) := hlog1
      _ = (2 * L) * Real.log b := by push_cast; ring
  have hk2 : (2 * L) < ((2 * k + 1 : ℤ) : ℝ) := by
    refine lt_of_mul_lt_mul_right ?_ (le_of_lt hlb)
    calc (2 * L) * Real.log b = (2 : ℕ) * (L * Real.log b) := by push_cast; ring
      _ < ((2 * k + 1 : ℤ) : ℝ) * Real.log b := hlog2
  have hk1' : (k : ℝ) ≤ L + 1 / 2 := by push_cast at hk1; linarith
  have hk2' : L + 1 / 2 < (k : ℝ) + 1 := by push_cast at hk2; linarith
  rw [round_eq, Int.floor_eq_iff]
  exact ⟨hk1', hk2'⟩

/-- Convenience form: identify the result of `getBinIdFromPrice` from rational
bracketing of the squared lamport price. -/
theorem getBinIdFromPrice_eq {price binStep : ℚ} (hp : 0 < price) (hs : 0 < binStep)
    (bd qd : ℕ) (adj : Bool) (k : ℤ)
    (h1 : binBasis binStep ^ (2 * k - 1) ≤ (lamportOf price bd qd adj) ^ (2 : ℕ))
    (h2 : (lamportOf price bd qd adj) ^ (2 : ℕ) < binBasis binStep ^ (2 * k + 1)) :
    getBinIdFromPrice price binStep bd qd adj = k + REFERENCE_BIN_ID := by
  unfold getBinIdFromPrice
  rw [if_neg (by push_neg; exact ⟨hp, hs⟩)]
  rw [round_log_div_eq (one_lt_binBasis hs) (lamportOf_pos hp bd qd adj) k h1 h2]

theorem lamportOf_mul_decimalFactor (price : ℚ) (bd qd : ℕ) :
    lamportOf price bd qd true * decimalFactor bd qd = price := by
  unfold lamportOf decimalFactor
  rw [if_pos rfl, mul_assoc, ← zpow_add₀ (by norm_num : (10 : ℚ) ≠ 0)]
  simp

theorem lamportOf_getPriceFromBinId (id : ℤ) (binStep : ℚ) (bd qd : ℕ) (adj : Bool) :
    lamportOf (getPriceFromBinId id binStep bd qd adj) bd qd adj =
      binBasis binStep ^ (id - REFERENCE_BIN_ID) := by
  cases adj with
  | false => simp [lamportOf, getPriceFromBinId]
  | true =>
    show getPriceFromBinId id binStep bd qd true * (10 : ℚ) ^ (-((bd : ℤ) - (qd : ℤ))) = _
    unfold getPriceFromBinId decimalFactor
    rw [if_pos rfl, mul_assoc, ← zpow_add₀ (by norm_num : (10 : ℚ) ≠ 0)]
    simp

/-- If the base-`b` logarithm of `p` is above `m` then `b ^ m < p`. -/
theorem zpow_lt_of_lt_log {b p : ℚ} (hb : 1 < b) (hp : 0 < p) {m : ℤ}
    (h : (m : ℝ) < Real.log (p : ℝ) / Real.log (b : ℝ)) : b ^ m < p := by
  have hbR : (1 : ℝ) < (b : ℝ) := by exact_mod_cast hb
  have hb0 : (0 : ℝ) < (b : ℝ) := lt_trans one_pos hbR
  have hpR : (0 : ℝ) < (p : ℝ) := by exact_mod_cast hp
  have hlb : 0 < Real.log (b : ℝ) := Real.log_pos hbR
  have hmul : (m : ℝ) * Real.log (b : ℝ) < Real.log (p : ℝ) := by
    have := (mul_lt_mul_right hlb).mpr h
    rwa [div_mul_cancel₀ _ (ne_of_gt hlb)] at this
  have hlog : Real.log ((b : ℝ) ^ m) < Real.log (p : ℝ) := by
    rwa [Real.log_zpow]
  have : (b : ℝ) ^ m < (p : ℝ) := (Real.log_lt_log_iff (zpow_pos hb0 m) hpR).mp hlog
  exact_mod_cast this

/-- If the base-`b` logarithm of `p` is below `m` then `p < b ^ m`. -/
theorem lt_zpow_of_log_lt {b p : ℚ} (hb : 1 < b) (hp : 0 < p) {m : ℤ}
    (h : Real.log (p : ℝ) / Real.log (b : ℝ) < (m : ℝ)) : p < b ^ m := by
  have hbR : (1 : ℝ) < (b : ℝ) := by exact_mod_cast hb
  have hb0 : (0 : ℝ) < (b : ℝ) := lt_trans one_pos hbR
  have hpR : (0 : ℝ) < (p : ℝ) := by exact_mod_cast hp
  have hlb : 0 < Real.log (b : ℝ) := Real.log_pos hbR
  have hmul : Real.log (p : ℝ) < (m : ℝ) * Real.log (b : ℝ) := by
    have := (mul_lt_mul_right hlb).mpr h
    rwa [div_mul_cancel₀ _ (ne_of_gt hlb)] at this
  have hlog : Real.log (p : ℝ) < Real.log ((b : ℝ) ^ m) := by
    rwa [Real.log_zpow]
  have : (p : ℝ) < (b : ℝ) ^ m := (Real.log_lt_log_iff hpR (zpow_pos hb0 m)).mp hlog
  exact_mod_cast this

/-- Every bin id strictly below the id that a positive price rounds to has a
strictly smaller bin price than that price. -/
theorem getPriceFromBinId_lt_of_lt {price binStep : ℚ} (hp : 0 < price) (hs : 0 < binStep)
    (bd qd : ℕ) (adj : Bool) {id : ℤ} (h : id < getBinIdFromPrice price binStep bd qd adj) :
    getPriceFromBinId id binStep bd qd adj < price := by
  have hguard : ¬(price ≤ 0 ∨ binStep ≤ 0) := by push_neg; exact ⟨hp, hs⟩
  rw [getBinIdFromPrice, if_neg hguard] at h
  set L : ℝ := Real.log ((lamportOf price bd qd adj : ℚ) : ℝ) /
      Real.log ((binBasis binStep : ℚ) : ℝ) with hLdef
  have hround : ((round L : ℤ) : ℝ) ≤ L + 1 / 2 := round_le_add_half L
  have hid : id - REFERENCE_BIN_ID ≤ round L - 1 := by omega
  have hidR : ((id - REFERENCE_BIN_ID : ℤ) : ℝ) < L := by
    have : ((id - REFERENCE_BIN_ID : ℤ) : ℝ) ≤ ((round L - 1 : ℤ) : ℝ) := by exact_mod_cast hid
    push_cast at this ⊢
    linarith
  have hkey : binBasis binStep ^ (id - REFERENCE_BIN_ID) < lamportOf price bd qd adj :=
    zpow_lt_of_lt_log (one_lt_binBasis hs) (lamportOf_pos hp bd qd adj) hidR
  cases adj with
  | false =>
    rw [lamportOf, if_neg (by simp)] at hkey
    simpa [getPriceFromBinId] using hkey
  | true =>
    have h2 := mul_lt_mul_of_pos_right hkey (decimalFactor_pos bd qd)
    rw [lamportOf_mul_decimalFactor] at h2
    simpa [getPriceFromBinId] using h2

/-- Every bin id strictly above the id that a positive price rounds to has a
strictly larger bin price than that price. -/
theorem lt_getPriceFromBinId_of_gt {price binStep : ℚ} (hp : 0 < price) (hs : 0 < binStep)
    (bd qd : ℕ) (adj : Bool) {id : ℤ} (h : getBinIdFromPrice price binStep bd qd adj < id) :
    price < getPriceFromBinId id binStep bd qd adj := by
  have hguard : ¬(price ≤ 0 ∨ binStep ≤ 0) := by push_neg; exact ⟨hp, hs⟩
  rw [getBinIdFromPrice, if_neg hguard] at h
  set L : ℝ := Real.log ((lamportOf price bd qd adj : ℚ) : ℝ) /
      Real.log ((binBasis binStep : ℚ) : ℝ) with hLdef
  have hround : L - 1 / 2 < ((round L : ℤ) : ℝ) := sub_half_lt_round L
  have hid : round L + 1 ≤ id - REFERENCE_BIN_ID := by omega
  have hidR : L < ((id - REFERENCE_BIN_ID : ℤ) : ℝ) := by
    have : ((round L + 1 : ℤ) : ℝ) ≤ ((id - REFERENCE_BIN_ID : ℤ) : ℝ) := by exact_mod_cast hid
    push_cast at this ⊢
    linarith
  have hkey : lamportOf price bd qd adj < binBasis binStep ^ (id - REFERENCE_BIN_ID) :=
    lt_zpow_of_log_lt (one_lt_binBasis hs) (lamportOf_pos hp bd qd adj) hidR
  cases adj with
  | false =>
    rw [lamportOf, if_neg (by simp)] at hkey
    simpa [getPriceFromBinId] using hkey
  | true =>
    have h2 := mul_lt_mul_of_pos_right hkey (decimalFactor_pos bd qd)
    rw [lamportOf_mul_decimalFactor] at h2
    simpa [getPriceFromBinId] using h2

/-- Monotonicity of `getBinIdFromPrice` in the price, over positive prices. -/
theorem getBinIdFromPrice_mono {p q binStep : ℚ} (hs : 0 < binStep) (hp : 0 < p)
    (hpq : p ≤ q) (bd qd : ℕ) (adj : Bool) :
    getBinIdFromPrice p binStep bd qd adj ≤ getBinIdFromPrice q binStep bd qd adj := by
  have hq : 0 < q := lt_of_lt_of_le hp hpq
  have hguardp : ¬(p ≤ 0 ∨ binStep ≤ 0) := by push_neg; exact ⟨hp, hs⟩
  have hguardq : ¬(q ≤ 0 ∨ binStep ≤ 0) := by push_neg; exact ⟨hq, hs⟩
  rw [getBinIdFromPrice, if_neg hguardp, getBinIdFromPrice, if_neg hguardq]
  have hlam : lamportOf p bd qd adj ≤ lamportOf q bd qd adj := by
    cases adj with
    | false => simpa [lamportOf] using hpq
    | true =>
      have hz : (0 : ℚ) < (10 : ℚ) ^ (-((bd : ℤ) - (qd : ℤ))) :=
        zpow_pos (by norm_num) _
      simpa [lamportOf] using mul_le_mul_of_nonneg_right hpq (le_of_lt hz)
  have hlamp := lamportOf_pos hp bd qd adj
  have hlamq := lamportOf_pos hq bd qd adj
  have hlb : 0 < Real.log ((binBasis binStep : ℚ) : ℝ) :=
    Real.log_pos (by exact_mod_cast one_lt_binBasis hs)
  have hlog : Real.log ((lamportOf p bd qd adj : ℚ) : ℝ) ≤
      Real.log ((lamportOf q bd qd adj : ℚ) : ℝ) :=
    (Real.log_le_log_iff (by exact_mod_cast hlamp) (by exact_mod_cast hlamq)).mpr
      (by exact_mod_cast hlam)
  have hdiv : Real.log ((lamportOf p bd qd adj : ℚ) : ℝ) / Real.log ((binBasis binStep : ℚ) : ℝ) ≤
      Real.log ((lamportOf q bd qd adj : ℚ) : ℝ) / Real.log ((binBasis binStep : ℚ) : ℝ) := by
    gcongr
  have : round (Real.log ((lamportOf p bd qd adj : ℚ) : ℝ) / Real.log ((binBasis binStep : ℚ) : ℝ)) ≤
      round (Real.log ((lamportOf q bd qd adj : ℚ) : ℝ) / Real.log ((binBasis binStep : ℚ) : ℝ)) := by
    rw [round_eq, round_eq]
    exact Int.floor_le_floor (by linarith)
  omega

/-- Claim C3 (confirmed): round-trip of the bin price model. For every positive
bin step and every id in the signed 32-bit range, converting the id to a price
and back (with matching decimals and adjustment flag) recovers the id. -/
theorem binId_price_roundtrip (id : ℤ) (binStep : ℚ) (bd qd : ℕ) (adj : Bool)
    (hs : 0 < binStep) (hlo : -2147483648 ≤ id) (hhi : id ≤ 2147483647) :
    getBinIdFromPrice (getPriceFromBinId id binStep bd qd adj) binStep bd qd adj = id := by
  have hb := one_lt_binBasis hs
  have hp := getPriceFromBinId_pos hs id bd qd adj
  have hlam := lamportOf_getPriceFromBinId id binStep bd qd adj
  have hsq : (lamportOf (getPriceFromBinId id binStep bd qd adj) bd qd adj) ^ (2 : ℕ) =
      binBasis binStep ^ (2 * (id - REFERENCE_BIN_ID)) := by
    rw [hlam, ← zpow_natCast (binBasis binStep ^ (id - REFERENCE_BIN_ID)) 2, ← zpow_mul]
    ring_nf
  have h1 : binBasis binStep ^ (2 * (id - REFERENCE_BIN_ID) - 1) ≤
      (lamportOf (getPriceFromBinId id binStep bd qd adj) bd qd adj) ^ (2 : ℕ) := by
    rw [hsq]
    exact zpow_le_zpow_right₀ (le_of_lt hb) (by omega)
  have h2 : (lamportOf (getPriceFromBinId id binStep bd qd adj) bd qd adj) ^ (2 : ℕ) <
      binBasis binStep ^ (2 * (id - REFERENCE_BIN_ID) + 1) := by
    rw [hsq]
    exact zpow_lt_zpow_right₀ hb (by omega)
  rw [getBinIdFromPrice_eq hp hs bd qd adj (id - REFERENCE_BIN_ID) h1 h2]
  omega

/-- Witness for the round-trip theorem at a concrete input. -/
theorem binId_price_roundtrip_witness :
    (0 : ℚ) < 25 ∧
      getBinIdFromPrice (getPriceFromBinId 262150 25 9 6 true) 25 9 6 true = 262150 :=
  ⟨by norm_num,
    binId_price_roundtrip 262150 25 9 6 true (by norm_num) (by norm_num) (by norm_num)⟩

/-- Claim C5 (confirmed): for a fixed positive bin step, fixed decimals and
fixed adjustment flag, the bin price is strictly increasing in the bin id. -/
theorem getPriceFromBinId_strictMono {binStep : ℚ} (hs : 0 < binStep) (bd qd : ℕ)
    (adj : Bool) {id1 id2 : ℤ} (h : id1 < id2) :
    getPriceFromBinId id1 binStep bd qd adj < getPriceFromBinId id2 binStep bd qd adj := by
  have hb := one_lt_binBasis hs
  have hz : binBasis binStep ^ (id1 - REFERENCE_BIN_ID) <
      binBasis binStep ^ (id2 - REFERENCE_BIN_ID) :=
    zpow_lt_zpow_right₀ hb (by omega)
  unfold getPriceFromBinId
  cases adj with
  | false => simpa using hz
  | true => simpa using mul_lt_mul_of_pos_right hz (decimalFactor_pos bd qd)

/-- Witness for the strict monotonicity theorem at a concrete input. -/
theorem getPriceFromBinId_strictMono_witness :
    (0 : ℚ) < 25 ∧ getPriceFromBinId 100 25 9 6 true < getPriceFromBinId 101 25 9 6 true :=
  ⟨by norm_num, getPriceFromBinId_strictMono (by norm_num) 9 6 true (by norm_num)⟩

/-- Claim C8 (confirmed): on a non-positive price or non-positive bin step,
`getBinIdFromPrice` returns the sentinel id 0 (and, being a total function,
raises no exception), for any decimals and adjustment flag. -/
theorem getBinIdFromPrice_sentinel (price binStep : ℚ) (bd qd : ℕ) (adj : Bool)
    (h : price ≤ 0 ∨ binStep ≤ 0) : getBinIdFromPrice price binStep bd qd adj = 0 := by
  rw [getBinIdFromPrice, if_pos h]

/-- Witness for the sentinel theorem at a concrete input. -/
theorem getBinIdFromPrice_sentinel_witness :
    ((-1 : ℚ) ≤ 0 ∨ (25 : ℚ) ≤ 0) ∧ getBinIdFromPrice (-1) 25 9 6 true = 0 :=
  ⟨Or.inl (by norm_num), getBinIdFromPrice_sentinel (-1) 25 9 6 true (Or.inl (by norm_num))⟩

/-! ### Integer ranges and association-list lookups -/

/-- The inclusive integer range `[lo, hi]` as a list, in increasing order
(the iteration order of the source's `for` loops over bin ids). -/
def binRangeList (lo hi : ℤ) : List ℤ :=
  (List.range (hi + 1 - lo).toNat).map (fun (n : ℕ) => lo + (n : ℤ))

theorem mem_binRangeList {lo hi id : ℤ} : id ∈ binRangeList lo hi ↔ lo ≤ id ∧ id ≤ hi := by
  unfold binRangeList
  simp only [List.mem_map, List.mem_range]
  constructor
  · rintro ⟨n, hn, rfl⟩
    omega
  · rintro ⟨h1, h2⟩
    exact ⟨(id - lo).toNat, by omega, by omega⟩

theorem binRangeList_ne_nil {lo hi : ℤ} (h : lo ≤ hi) : binRangeList lo hi ≠ [] := by
  intro hnil
  have : lo ∈ binRangeList lo hi := mem_binRangeList.mpr ⟨le_refl lo, h⟩
  rw [hnil] at this
  exact absurd this (List.not_mem_nil lo)

theorem lookup_map_self {β : Type} (f : ℤ → β) (l : List ℤ) (a : ℤ) :
    (l.map (fun i => (i, f i))).lookup a = if a ∈ l then some (f a) else none := by
  induction l with
  | nil => simp
  | cons x t ih =>
    by_cases hax : a = x
    · subst hax
      simp [List.lookup]
    · have hbeq : (a == x) = false := by simp [hax]
      simp [List.lookup, hbeq, ih, hax]

theorem lookup_append_left {β : Type} {l₁ l₂ : List (ℤ × β)} {a : ℤ}
    (h : a ∈ l₁.map Prod.fst) : (l₁ ++ l₂).lookup a = l₁.lookup a := by
  induction l₁ with
  | nil => simp at h
  | cons x t ih =>
    by_cases hax : a = x.1
    · have hbeq : (a == x.1) = true := by simp [hax]
      simp [List.lookup, hbeq]
    · have hbeq : (a == x.1) = false := by simp [hax]
      have h' : a ∈ t.map Prod.fst := by
        simp only [List.map_cons, List.mem_cons] at h
        exact h.resolve_left hax
      simp [List.lookup, hbeq, ih h']

theorem lookup_append_right {β : Type} {l₁ l₂ : List (ℤ × β)} {a : ℤ}
    (h : a ∉ l₁.map Prod.fst) : (l₁ ++ l₂).lookup a = l₂.lookup a := by
  induction l₁ with
  | nil => simp
  | cons x t ih =>
    have hax : a ≠ x.1 := by
      intro hc
      exact h (by simp [hc])
    have h' : a ∉ t.map Prod.fst := by
      intro hc
      exact h (by simp [hc])
    have hbeq : (a == x.1) = false := by simp [hax]
    simp [List.lookup, hbeq, ih h']

theorem mem_of_lookup_eq_some {β : Type} {l : List (ℤ × β)} {a : ℤ} {b : β}
    (h : l.lookup a = some b) : (a, b) ∈ l := by
  induction l with
  | nil => simp [List.lookup] at h
  | cons x t ih =>
    by_cases hax : a = x.1
    · have hbeq : (a == x.1) = true := by simp [hax]
      simp only [List.lookup, hbeq] at h
      have hx : (a, b) = x := by
        cases x
        simp only [Option.some.injEq] at h
        simp_all
      rw [hx]
      exact List.mem_cons_self _ _
    · have hbeq : (a == x.1) = false := by simp [hax]
      simp only [List.lookup, hbeq] at h
      exact List.mem_cons_of_mem _ (ih h)

theorem lookup_eq_some_of_mem_fst {β : Type} {l : List (ℤ × β)} {a : ℤ}
    (h : a ∈ l.map Prod.fst) : ∃ b, l.lookup a = some b := by
  induction l with
  | nil => simp at h
  | cons x t ih =>
    by_cases hax : a = x.1
    · have hbeq : (a == x.1) = true := by simp [hax]
      exact ⟨x.2, by simp [List.lookup, hbeq]⟩
    · have h' : a ∈ t.map Prod.fst := by
        simp only [List.map_cons, List.mem_cons] at h
        exact h.resolve_left hax
      have hbeq : (a == x.1) = false := by simp [hax]
      obtain ⟨b, hb⟩ := ih h'
      exact ⟨b, by simp [List.lookup, hbeq, hb]⟩

/-! ### Strategy weights (`calculateStrategyWeights`) -/

/-- Embedding of `calculateStrategyWeights` (dlmm-strategies): an association
list from bin id to weight, built in the same order as the source loops
(quote side `minBinId..activeBinId` first, then base side
`activeBinId+1..maxBinId`; spot iterates `minBinId..maxBinId` once). -/
def calculateStrategyWeights (strategy : Strategy) (minBinId maxBinId activeBinId : ℤ) :
    List (ℤ × ℚ) :=
  match strategy with
  | .spot => (binRangeList minBinId maxBinId).map (fun id => (id, (1 : ℚ)))
  | .bidAsk =>
      (binRangeList minBinId activeBinId).map
        (fun id => (id, ((activeBinId - id + 1 : ℤ) : ℚ))) ++
      (binRangeList (activeBinId + 1) maxBinId).map
        (fun id => (id, ((id - activeBinId + 1 : ℤ) : ℚ)))
  | .curve =>
      (binRangeList minBinId activeBinId).map
        (fun id => (id,
          ((max (if 0 < activeBinId - minBinId then
              activeBinId - minBinId - (activeBinId - id) else 1) 1 : ℤ) : ℚ))) ++
      (binRangeList (activeBinId + 1) maxBinId).map
        (fun id => (id,
          ((max (if 0 < maxBinId - activeBinId then
              maxBinId - activeBinId - (id - activeBinId) else 1) 1 : ℤ) : ℚ)))

theorem map_fst_map_pair {β : Type} (f : ℤ → β) (l : List ℤ) :
    (l.map (fun i => (i, f i))).map Prod.fst = l := by
  rw [List.map_map]
  exact List.map_id' l

theorem weights_fst_spot (minB maxB active : ℤ) :
    (calculateStrategyWeights .spot minB maxB active).map Prod.fst = binRangeList minB maxB := by
  show ((binRangeList minB maxB).map _).map Prod.fst = _
  rw [map_fst_map_pair]

theorem weights_fst_bidAsk (minB maxB active : ℤ) :
    (calculateStrategyWeights .bidAsk minB maxB active).map Prod.fst =
      binRangeList minB active ++ binRangeList (active + 1) maxB := by
  show (((binRangeList minB active).map _) ++ ((binRangeList (active + 1) maxB).map _)).map Prod.fst = _
  rw [List.map_append, map_fst_map_pair, map_fst_map_pair]

theorem weights_fst_curve (minB maxB active : ℤ) :
    (calculateStrategyWeights .curve minB maxB active).map Prod.fst =
      binRangeList minB active ++ binRangeList (active + 1) maxB := by
  show (((binRangeList minB active).map _) ++ ((binRangeList (active + 1) maxB).map _)).map Prod.fst = _
  rw [List.map_append, map_fst_map_pair, map_fst_map_pair]

/-- Any in-range bin id is a key of the weight map, for every strategy. -/
theorem mem_weights_fst {s : Strategy} {minB maxB active id : ℤ}
    (h1 : minB ≤ id) (h2 : id ≤ maxB) :
    id ∈ (calculateStrategyWeights s minB maxB active).map Prod.fst := by
  cases s with
  | spot =>
    rw [weights_fst_spot]
    exact mem_binRangeList.mpr ⟨h1, h2⟩
  | bidAsk =>
    rw [weights_fst_bidAsk, List.mem_append]
    by_cases hq : id ≤ active
    · exact Or.inl (mem_binRangeList.mpr ⟨h1, hq⟩)
    · exact Or.inr (mem_binRangeList.mpr ⟨by omega, h2⟩)
  | curve =>
    rw [weights_fst_curve, List.mem_append]
    by_cases hq : id ≤ active
    · exact Or.inl (mem_binRangeList.mpr ⟨h1, hq⟩)
    · exact Or.inr (mem_binRangeList.mpr ⟨by omega, h2⟩)

/-- Every weight produced by any strategy is at least 1. -/
theorem weights_ge_one (s : Strategy) (minB maxB active : ℤ) :
    ∀ e ∈ calculateStrategyWeights s minB maxB active, (1 : ℚ) ≤ e.2 := by
  intro e he
  cases s with
  | spot =>
    simp only [calculateStrategyWeights, List.mem_map] at he
    obtain ⟨id, _, rfl⟩ := he
    norm_num
  | bidAsk =>
    simp only [calculateStrategyWeights, List.mem_append, List.mem_map] at he
    rcases he with ⟨id, hid, rfl⟩ | ⟨id, hid, rfl⟩
    · rw [mem_binRangeList] at hid
      have hz : (1 : ℤ) ≤ active - id + 1 := by omega
      dsimp only
      exact_mod_cast hz
    · rw [mem_binRangeList] at hid
      have hz : (1 : ℤ) ≤ id - active + 1 := by omega
      dsimp only
      exact_mod_cast hz
  | curve =>
    simp only [calculateStrategyWeights, List.mem_append, List.mem_map] at he
    rcases he with ⟨id, hid, rfl⟩ | ⟨id, hid, rfl⟩
    · dsimp only
      exact_mod_cast le_max_right _ (1 : ℤ)
    · dsimp only
      exact_mod_cast le_max_right _ (1 : ℤ)

/-- Lookup of a weight with default 0 (the value the downstream code reads for
keys that are present is always the stored weight). -/
def weightLookup (weights : List (ℤ × ℚ)) (id : ℤ) : ℚ := (weights.lookup id).getD 0

theorem weightLookup_nonneg (s : Strategy) (minB maxB active id : ℤ) :
    0 ≤ weightLookup (calculateStrategyWeights s minB maxB active) id := by
  unfold weightLookup
  cases hl : (calculateStrategyWeights s minB maxB active).lookup id with
  | none => simp
  | some w =>
    have := weights_ge_one s minB maxB active _ (mem_of_lookup_eq_some hl)
    simp only [Option.getD_some]
    linarith

theorem one_le_weightLookup {s : Strategy} {minB maxB active id : ℤ}
    (h1 : minB ≤ id) (h2 : id ≤ maxB) :
    1 ≤ weightLookup (calculateStrategyWeights s minB maxB active) id := by
  obtain ⟨w, hw⟩ := lookup_eq_some_of_mem_fst (@mem_weights_fst s minB maxB active id h1 h2)
  have := weights_ge_one s minB maxB active _ (mem_of_lookup_eq_some hw)
  unfold weightLookup
  rw [hw]
  simpa using this

/-- Full characterization of the curve strategy weight map: on the quote side
the weight is `max (activeBinId - minBinId - distance) 1`, on the base side it
is `max (maxBinId - activeBinId - distance) 1`. -/
theorem curve_lookup_eq (minB maxB active id : ℤ) :
    (calculateStrategyWeights .curve minB maxB active).lookup id =
      if minB ≤ id ∧ id ≤ active then
        some ((max (active - minB - (active - id)) 1 : ℤ) : ℚ)
      else if active < id ∧ id ≤ maxB then
        some ((max (maxB - active - (id - active)) 1 : ℤ) : ℚ)
      else none := by
  show (((binRangeList minB active).map _) ++ ((binRangeList (active + 1) maxB).map _)).lookup id = _
  by_cases hq : minB ≤ id ∧ id ≤ active
  · rw [lookup_append_left (by
      simpa [List.map_map, Function.comp] using mem_binRangeList.mpr hq)]
    rw [lookup_map_self, if_pos (mem_binRangeList.mpr hq), if_pos hq]
    rcases hq with ⟨hq1, hq2⟩
    have hz : (max (if 0 < active - minB then active - minB - (active - id) else 1) 1 : ℤ) =
        max (active - minB - (active - id)) 1 := by
      by_cases h0 : 0 < active - minB
      · rw [if_pos h0]
      · rw [if_neg h0]
        omega
    rw [hz]
  · have hnq : id ∉ (List.map (fun id => (id,
        ((max (if 0 < active - minB then active - minB - (active - id) else 1) 1 : ℤ) : ℚ)))
        (binRangeList minB active)).map Prod.fst := by
      simpa [List.map_map, Function.comp, mem_binRangeList] using fun h1 h2 => hq ⟨h1, h2⟩
    rw [lookup_append_right hnq, lookup_map_self, if_neg hq]
    by_cases hb : active < id ∧ id ≤ maxB
    · rw [if_pos (mem_binRangeList.mpr ⟨by omega, hb.2⟩), if_pos hb]
      rcases hb with ⟨hb1, hb2⟩
      have hz : (max (if 0 < maxB - active then maxB - active - (id - active) else 1) 1 : ℤ) =
        max (maxB - active - (id - active)) 1 := by
        by_cases h0 : 0 < maxB - active
        · rw [if_pos h0]
        · rw [if_neg h0]
          omega
      rw [hz]
    · rw [if_neg (by
        rw [mem_binRangeList]
        omega), if_neg hb]

/-- Claim C4 counterexample: with bins 0..4 and active bin 2, the curve
strategy assigns the active bin the weight 2, not the claimed
`max (sideBinCount - distance) 1 = max ((2 - 0 + 1) - 0) 1 = 3`, where
`sideBinCount = 3` is the number of quote-side bins (ids 0, 1, 2). -/
theorem curve_weights_counterexample :
    (calculateStrategyWeights .curve 0 4 2).lookup 2 ≠
      some ((max ((2 - 0 + 1) - (2 - 2)) 1 : ℤ) : ℚ) := by
  rw [curve_lookup_eq]
  norm_num

/-- Claim C4 (corrected): for `minBinId ≤ maxBinId` and any `activeBinId`, the
curve strategy assigns each bin id on the quote side (`minBinId ≤ id ≤
activeBinId`) the weight `max (c - distance) 1` with
`c = activeBinId - minBinId` (one less than the number of quote-side bins),
and each id on the base side (`activeBinId < id ≤ maxBinId`) the weight
`max (c - distance) 1` with `c = maxBinId - activeBinId` (the number of
base-side bins). -/
theorem curve_weights_amended (minB maxB active id : ℤ) (hle : minB ≤ maxB) :
    (calculateStrategyWeights .curve minB maxB active).lookup id =
      if minB ≤ id ∧ id ≤ active then
        some ((max (active - minB - (active - id)) 1 : ℤ) : ℚ)
      else if active < id ∧ id ≤ maxB then
        some ((max (maxB - active - (id - active)) 1 : ℤ) : ℚ)
      else none :=
  curve_lookup_eq minB maxB active id

/-- Witness for the amended curve weight theorem at a concrete input. -/
theorem curve_weights_amended_witness :
    (0 : ℤ) ≤ 4 ∧
      (calculateStrategyWeights .curve 0 4 2).lookup 2 =
        if (0 : ℤ) ≤ 2 ∧ (2 : ℤ) ≤ 2 then
          some ((max (2 - 0 - (2 - 2)) 1 : ℤ) : ℚ)
        else if (2 : ℤ) < 2 ∧ (2 : ℤ) ≤ 4 then
          some ((max (4 - 2 - (2 - 2)) 1 : ℤ) : ℚ)
        else none :=
  ⟨by norm_num, curve_weights_amended 0 4 2 2 (by norm_num)⟩

/-! ### Amount distribution (`weightsToAmounts`) -/

/-- Per-bin amount record produced by `weightsToAmounts`. -/
structure BinAmount where
  baseAmount : ℚ
  quoteAmount : ℚ
  valueInQuote : ℚ
deriving DecidableEq

/-- The quote-side keys of the weight map (`id <= activeBinId`), in map order. -/
def quoteKeysOf (weights : List (ℤ × ℚ)) (activeBinId : ℤ) : List ℤ :=
  (weights.map Prod.fst).filter (fun id => id ≤ activeBinId)

/-- The base-side keys of the weight map (`id > activeBinId`), in map order. -/
def baseKeysOf (weights : List (ℤ × ℚ)) (activeBinId : ℤ) : List ℤ :=
  (weights.map Prod.fst).filter (fun id => activeBinId < id)

/-- Total weight of the quote side. -/
def totalQuoteWeightOf (weights : List (ℤ × ℚ)) (activeBinId : ℤ) : ℚ :=
  ((quoteKeysOf weights activeBinId).map (weightLookup weights)).sum

/-- Total weight of the base side. -/
def totalBaseWeightOf (weights : List (ℤ × ℚ)) (activeBinId : ℤ) : ℚ :=
  ((baseKeysOf weights activeBinId).map (weightLookup weights)).sum

/-- The constant per-bin value used by the spot strategy on the base side:
`totalQuoteAmount / quoteBins.length` when there are quote bins, else 0. -/
def constantValueOf (weights : List (ℤ × ℚ)) (activeBinId : ℤ) (totalQuoteAmount : ℚ) : ℚ :=
  if 0 < (quoteKeysOf weights activeBinId).length then
    totalQuoteAmount / ((quoteKeysOf weights activeBinId).length : ℚ)
  else 0

/-- Quote-side entries of `weightsToAmounts`: proportional distribution when
both the total quote weight and the total quote amount are positive, zeros
otherwise. -/
def quoteEntriesOf (weights : List (ℤ × ℚ)) (totalQuoteAmount : ℚ) (activeBinId : ℤ) :
    List (ℤ × BinAmount) :=
  if 0 < totalQuoteWeightOf weights activeBinId ∧ 0 < totalQuoteAmount then
    (quoteKeysOf weights activeBinId).map (fun id =>
      (id, BinAmount.mk 0
        (totalQuoteAmount * weightLookup weights id / totalQuoteWeightOf weights activeBinId)
        (totalQuoteAmount * weightLookup weights id / totalQuoteWeightOf weights activeBinId)))
  else (quoteKeysOf weights activeBinId).map (fun id => (id, BinAmount.mk 0 0 0))

/-- Base-side entries of `weightsToAmounts`: equal-value bins for spot,
weight-proportional target value for bid-ask and curve, zeros when the base
side has no weight or no base amount. -/
def baseEntriesOf (weights : List (ℤ × ℚ)) (totalBaseAmount totalQuoteAmount : ℚ)
    (activeBinId : ℤ) (binPrices : ℤ → ℚ) (strategy : Strategy) (initialPrice : ℚ) :
    List (ℤ × BinAmount) :=
  if 0 < totalBaseWeightOf weights activeBinId ∧ 0 < totalBaseAmount then
    match strategy with
    | .spot =>
      (baseKeysOf weights activeBinId).map (fun id =>
        (id, BinAmount.mk (constantValueOf weights activeBinId totalQuoteAmount / binPrices id) 0
          (constantValueOf weights activeBinId totalQuoteAmount / binPrices id * initialPrice)))
    | _ =>
      (baseKeysOf weights activeBinId).map (fun id =>
        (id, BinAmount.mk
          (totalBaseAmount * initialPrice *
              (weightLookup weights id / totalBaseWeightOf weights activeBinId) / binPrices id) 0
          (totalBaseAmount * initialPrice *
              (weightLookup weights id / totalBaseWeightOf weights activeBinId))))
  else (baseKeysOf weights activeBinId).map (fun id => (id, BinAmount.mk 0 0 0))

/-- Embedding of `weightsToAmounts` (dlmm-strategies): quote entries first,
then base entries, exactly as the source inserts them into its `Map`. -/
def weightsToAmounts (weights : List (ℤ × ℚ)) (totalBaseAmount totalQuoteAmount : ℚ)
    (activeBinId : ℤ) (binPrices : ℤ → ℚ) (strategy : Strategy) (initialPrice : ℚ) :
    List (ℤ × BinAmount) :=
  quoteEntriesOf weights totalQuoteAmount activeBinId ++
    baseEntriesOf weights totalBaseAmount totalQuoteAmount activeBinId binPrices strategy
      initialPrice

theorem mem_quoteKeysOf {weights : List (ℤ × ℚ)} {active id : ℤ} :
    id ∈ quoteKeysOf weights active ↔ id ∈ weights.map Prod.fst ∧ id ≤ active := by
  unfold quoteKeysOf
  simp [List.mem_filter]

theorem mem_baseKeysOf {weights : List (ℤ × ℚ)} {active id : ℤ} :
    id ∈ baseKeysOf weights active ↔ id ∈ weights.map Prod.fst ∧ active < id := by
  unfold baseKeysOf
  simp [List.mem_filter]

theorem quoteEntriesOf_fst (weights : List (ℤ × ℚ)) (qA : ℚ) (active : ℤ) :
    (quoteEntriesOf weights qA active).map Prod.fst = quoteKeysOf weights active := by
  unfold quoteEntriesOf
  split
  · rw [map_fst_map_pair]
  · rw [map_fst_map_pair]

theorem baseEntriesOf_fst (weights : List (ℤ × ℚ)) (bA qA : ℚ) (active : ℤ)
    (prices : ℤ → ℚ) (strat : Strategy) (ip : ℚ) :
    (baseEntriesOf weights bA qA active prices strat ip).map Prod.fst =
      baseKeysOf weights active := by
  unfold baseEntriesOf
  split
  · cases strat
    · rw [map_fst_map_pair]
    · rw [map_fst_map_pair]
    · rw [map_fst_map_pair]
  · rw [map_fst_map_pair]

/-- Lookup of a quote-side key in the amounts map. -/
theorem lookup_amounts_quote {weights : List (ℤ × ℚ)} {active id : ℤ}
    (hid : id ∈ weights.map Prod.fst) (hle : id ≤ active)
    (bA qA : ℚ) (prices : ℤ → ℚ) (strat : Strategy) (ip : ℚ) :
    (weightsToAmounts weights bA qA active prices strat ip).lookup id =
      some (if 0 < totalQuoteWeightOf weights active ∧ 0 < qA then
        BinAmount.mk 0
          (qA * weightLookup weights id / totalQuoteWeightOf weights active)
          (qA * weightLookup weights id / totalQuoteWeightOf weights active)
      else BinAmount.mk 0 0 0) := by
  have hmem : id ∈ quoteKeysOf weights active := mem_quoteKeysOf.mpr ⟨hid, hle⟩
  unfold weightsToAmounts
  rw [lookup_append_left (by rw [quoteEntriesOf_fst]; exact hmem)]
  unfold quoteEntriesOf
  by_cases hc : 0 < totalQuoteWeightOf weights active ∧ 0 < qA
  · rw [if_pos hc, if_pos hc, lookup_map_self, if_pos hmem]
  · rw [if_neg hc, if_neg hc, lookup_map_self, if_pos hmem]

/-- Lookup of a base-side key in the amounts map, spot strategy. -/
theorem lookup_amounts_base_spot {weights : List (ℤ × ℚ)} {active id : ℤ}
    (hid : id ∈ weights.map Prod.fst) (hgt : active < id)
    (bA qA : ℚ) (prices : ℤ → ℚ) (ip : ℚ) :
    (weightsToAmounts weights bA qA active prices .spot ip).lookup id =
      some (if 0 < totalBaseWeightOf weights active ∧ 0 < bA then
        BinAmount.mk (constantValueOf weights active qA / prices id) 0
          (constantValueOf weights active qA / prices id * ip)
      else BinAmount.mk 0 0 0) := by
  have hmem : id ∈ baseKeysOf weights active := mem_baseKeysOf.mpr ⟨hid, hgt⟩
  have hnq : id ∉ (quoteEntriesOf weights qA active).map Prod.fst := by
    rw [quoteEntriesOf_fst, mem_quoteKeysOf]
    omega
  unfold weightsToAmounts
  rw [lookup_append_right hnq]
  unfold baseEntriesOf
  by_cases hc : 0 < totalBaseWeightOf weights active ∧ 0 < bA
  · rw [if_pos hc, if_pos hc]
    rw [lookup_map_self, if_pos hmem]
  · rw [if_neg hc, if_neg hc, lookup_map_self, if_pos hmem]

/-- Lookup of a base-side key in the amounts map, bid-ask or curve strategy. -/
theorem lookup_amounts_base_other {weights : List (ℤ × ℚ)} {active id : ℤ}
    (hid : id ∈ weights.map Prod.fst) (hgt : active < id)
    (bA qA : ℚ) (prices : ℤ → ℚ) {strat : Strategy} (hstrat : strat ≠ .spot) (ip : ℚ) :
    (weightsToAmounts weights bA qA active prices strat ip).lookup id =
      some (if 0 < totalBaseWeightOf weights active ∧ 0 < bA then
        BinAmount.mk
          (bA * ip * (weightLookup weights id / totalBaseWeightOf weights active) / prices id) 0
          (bA * ip * (weightLookup weights id / totalBaseWeightOf weights active))
      else BinAmount.mk 0 0 0) := by
  have hmem : id ∈ baseKeysOf weights active := mem_baseKeysOf.mpr ⟨hid, hgt⟩
  have hnq : id ∉ (quoteEntriesOf weights qA active).map Prod.fst := by
    rw [quoteEntriesOf_fst, mem_quoteKeysOf]
    omega
  unfold weightsToAmounts
  rw [lookup_append_right hnq]
  unfold baseEntriesOf
  by_cases hc : 0 < totalBaseWeightOf weights active ∧ 0 < bA
  · rw [if_pos hc]
    cases strat with
    | spot => exact absurd rfl hstrat
    | bidAsk =>
      rw [if_pos hc, lookup_map_self, if_pos hmem]
    | curve =>
      rw [if_pos hc, lookup_map_self, if_pos hmem]
  · rw [if_neg hc, if_neg hc, lookup_map_self, if_pos hmem]

/-- All amount components produced by `weightsToAmounts` are nonnegative,
given a nonnegative quote amount, positive initial price, positive prices and
nonnegative weights. -/
theorem weightsToAmounts_nonneg {weights : List (ℤ × ℚ)} {bA qA : ℚ} {active : ℤ}
    {prices : ℤ → ℚ} {strat : Strategy} {ip : ℚ}
    (hq0 : 0 ≤ qA) (hip : 0 < ip) (hpr : ∀ id, 0 < prices id)
    (hw0 : ∀ id, 0 ≤ weightLookup weights id) :
    ∀ e ∈ weightsToAmounts weights bA qA active prices strat ip,
      0 ≤ e.2.baseAmount ∧ 0 ≤ e.2.quoteAmount ∧ 0 ≤ e.2.valueInQuote := by
  intro e he
  unfold weightsToAmounts at he
  rw [List.mem_append] at he
  rcases he with he | he
  · unfold quoteEntriesOf at he
    split at he
    · rename_i hc
      obtain ⟨id, -, rfl⟩ := List.mem_map.mp he
      refine ⟨le_refl 0, ?_, ?_⟩ <;>
        exact div_nonneg (mul_nonneg (le_of_lt hc.2) (hw0 id)) (le_of_lt hc.1)
    · obtain ⟨id, -, rfl⟩ := List.mem_map.mp he
      exact ⟨le_refl 0, le_refl 0, le_refl 0⟩
  · unfold baseEntriesOf at he
    split at he
    · rename_i hc
      have hcv : 0 ≤ constantValueOf weights active qA := by
        unfold constantValueOf
        split
        · exact div_nonneg hq0 (by positivity)
        · exact le_refl 0
      cases strat with
      | spot =>
        obtain ⟨id, -, rfl⟩ := List.mem_map.mp he
        refine ⟨div_nonneg hcv (le_of_lt (hpr id)), le_refl 0, ?_⟩
        exact mul_nonneg (div_nonneg hcv (le_of_lt (hpr id))) (le_of_lt hip)
      | bidAsk =>
        obtain ⟨id, -, rfl⟩ := List.mem_map.mp he
        have htv : 0 ≤ bA * ip * (weightLookup weights id / totalBaseWeightOf weights active) :=
          mul_nonneg (mul_nonneg (le_of_lt hc.2) (le_of_lt hip))
            (div_nonneg (hw0 id) (le_of_lt hc.1))
        exact ⟨div_nonneg htv (le_of_lt (hpr id)), le_refl 0, htv⟩
      | curve =>
        obtain ⟨id, -, rfl⟩ := List.mem_map.mp he
        have htv : 0 ≤ bA * ip * (weightLookup weights id / totalBaseWeightOf weights active) :=
          mul_nonneg (mul_nonneg (le_of_lt hc.2) (le_of_lt hip))
            (div_nonneg (hw0 id) (le_of_lt hc.1))
        exact ⟨div_nonneg htv (le_of_lt (hpr id)), le_refl 0, htv⟩
    · obtain ⟨id, -, rfl⟩ := List.mem_map.mp he
      exact ⟨le_refl 0, le_refl 0, le_refl 0⟩

/-! ### Position builder (`getInitialBins`) -/

/-- Construction of one bin record in the `getInitialBins` loop: price from
the bin id, amounts from the amounts map (zero record when absent), token type
quote on `id ≤ activeBinId` and base otherwise, and `pricePerLamport =
price * 10^(quoteDecimals - baseDecimals)`. -/
def mkBin (binStep : ℚ) (bd qd : ℕ) (adj : Bool) (activeBinId : ℤ)
    (amounts : List (ℤ × BinAmount)) (id : ℤ) : SimulatedBin :=
  { id := id
    price := getPriceFromBinId id binStep bd qd adj
    pricePerLamport := getPriceFromBinId id binStep bd qd adj * (10 : ℚ) ^ ((qd : ℤ) - (bd : ℤ))
    initialTokenType := if id ≤ activeBinId then TokenType.quote else TokenType.base
    initialAmount := if id ≤ activeBinId then ((amounts.lookup id).getD (BinAmount.mk 0 0 0)).quoteAmount
      else ((amounts.lookup id).getD (BinAmount.mk 0 0 0)).baseAmount
    initialValueInQuote := ((amounts.lookup id).getD (BinAmount.mk 0 0 0)).valueInQuote
    displayValue := ((amounts.lookup id).getD (BinAmount.mk 0 0 0)).valueInQuote
    currentTokenType := if id ≤ activeBinId then TokenType.quote else TokenType.base
    currentAmount := if id ≤ activeBinId then ((amounts.lookup id).getD (BinAmount.mk 0 0 0)).quoteAmount
      else ((amounts.lookup id).getD (BinAmount.mk 0 0 0)).baseAmount
    currentValueInQuote := ((amounts.lookup id).getD (BinAmount.mk 0 0 0)).valueInQuote }

/-- The amounts association list used by `getInitialBins`, with the bin price
map realized as the total function `getPriceFromBinId · binStep bd qd adj`
(the source builds that map for ids `minId..maxId`; all reads that reach a bin
fall in this range). -/
def amountsFor (strategy : Strategy) (binStep bA qA ip : ℚ) (bd qd : ℕ) (adj : Bool)
    (minId maxId activeBinId : ℤ) : List (ℤ × BinAmount) :=
  weightsToAmounts (calculateStrategyWeights strategy minId maxId activeBinId) bA qA activeBinId
    (fun id => getPriceFromBinId id binStep bd qd adj) strategy ip

/-- The bins array of `getInitialBins` before normalization. -/
def rawBins (strategy : Strategy) (binStep bA qA ip : ℚ) (bd qd : ℕ) (adj : Bool)
    (minId maxId activeBinId : ℤ) : List SimulatedBin :=
  (binRangeList minId maxId).map
    (mkBin binStep bd qd adj activeBinId (amountsFor strategy binStep bA qA ip bd qd adj minId maxId activeBinId))

/-- Sum of `initialAmount` over base-typed bins (`calculatedBaseSum`). -/
def baseSumOf (bins : List SimulatedBin) : ℚ :=
  (bins.map (fun b => if b.initialTokenType = TokenType.base then b.initialAmount else 0)).sum

/-- Sum of `initialAmount` over quote-typed bins (`calculatedQuoteSum`). -/
def quoteSumOf (bins : List SimulatedBin) : ℚ :=
  (bins.map (fun b => if b.initialTokenType = TokenType.quote then b.initialAmount else 0)).sum

/-- The base-side normalization pass applied to one bin: base-typed bins have
their amount scaled by the correction factor `f`; for spot the value is
recomputed as `amount * price`, otherwise it is scaled by `f`. -/
def applyBaseNorm (strategy : Strategy) (f : ℚ) (b : SimulatedBin) : SimulatedBin :=
  if b.initialTokenType = TokenType.base then
    { b with
      initialAmount := b.initialAmount * f
      initialValueInQuote := if strategy = Strategy.spot then b.initialAmount * f * b.price
        else b.initialValueInQuote * f }
  else b

/-- The quote-side normalization pass applied to one bin: quote-typed bins have
their amount scaled by `f` and their value set to the new amount. -/
def applyQuoteNorm (f : ℚ) (b : SimulatedBin) : SimulatedBin :=
  if b.initialTokenType = TokenType.quote then
    { b with
      initialAmount := b.initialAmount * f
      initialValueInQuote := b.initialAmount * f }
  else b

/-- The final `displayValue := initialValueInQuote` pass. -/
def setDisplay (b : SimulatedBin) : SimulatedBin :=
  { b with displayValue := b.initialValueInQuote }

/-- Normalization stage of `getInitialBins`: both correction sums are computed
on the raw bins; each pass runs only when the requested amount and the
computed sum are positive; finally every display value is refreshed. -/
def normalizeBins (strategy : Strategy) (bA qA : ℚ) (bins : List SimulatedBin) :
    List SimulatedBin :=
  ((if 0 < qA ∧ 0 < quoteSumOf bins then
      (if 0 < bA ∧ 0 < baseSumOf bins then
        bins.map (applyBaseNorm strategy (bA / baseSumOf bins)) else bins).map
        (applyQuoteNorm (qA / quoteSumOf bins))
    else
      (if 0 < bA ∧ 0 < baseSumOf bins then
        bins.map (applyBaseNorm strategy (bA / baseSumOf bins)) else bins))).map setDisplay

/-- Bin construction stage of `getInitialBins` for already-computed bin ids,
ending with the ascending sort by price. -/
def buildBins (strategy : Strategy) (binStep bA qA ip : ℚ) (bd qd : ℕ) (adj : Bool)
    (minId maxId activeBinId : ℤ) : List SimulatedBin :=
  List.insertionSort (fun a b => a.price ≤ b.price)
    (normalizeBins strategy bA qA (rawBins strategy binStep bA qA ip bd qd adj minId maxId activeBinId))

/-- Embedding of `getInitialBins` (dlmm.ts): defaults for the optional decimal
fields, input validation returning the empty list, then bin construction with
the three ids obtained from `getBinIdFromPrice`. -/
noncomputable def getInitialBins (params : SimulationParams) : List SimulatedBin :=
  if params.lowerPrice ≤ 0 ∨ params.upperPrice ≤ params.lowerPrice ∨
      params.binStep ≤ 0 ∨ params.initialPrice ≤ 0 then []
  else
    buildBins params.strategy params.binStep params.baseAmount params.quoteAmount
      params.initialPrice (params.baseDecimals.getD 9) (params.quoteDecimals.getD 6)
      (params.applyDecimalAdjustment.getD true)
      (getBinIdFromPrice params.lowerPrice params.binStep (params.baseDecimals.getD 9)
        (params.quoteDecimals.getD 6) (params.applyDecimalAdjustment.getD true))
      (getBinIdFromPrice params.upperPrice params.binStep (params.baseDecimals.getD 9)
        (params.quoteDecimals.getD 6) (params.applyDecimalAdjustment.getD true))
      (getBinIdFromPrice params.initialPrice params.binStep (params.baseDecimals.getD 9)
        (params.quoteDecimals.getD 6) (params.applyDecimalAdjustment.getD true))

/-! ### Price simulator (`runSimulation`) -/

/-- Dust threshold `1e-12` used by the analysis aggregation. -/
def dustThreshold : ℚ := 1 / 10 ^ 12

/-- Relative tolerance `1e-9` used by the spec's normalization postcondition. -/
def relTol : ℚ := 1 / 10 ^ 9

/-- Per-bin state transition of `runSimulation`: zero-amount bins are zeroed
out (with their display value cleared); otherwise the resulting token type
depends only on the current price versus the bin's own price, converting at
the bin price when the type changes, and the current value is taken at the
current market price. -/
def simulateBin (currentPrice : ℚ) (bin : SimulatedBin) : SimulatedBin :=
  if bin.initialAmount ≤ 0 then
    { bin with
      currentAmount := 0
      currentValueInQuote := 0
      currentTokenType := bin.initialTokenType
      displayValue := 0 }
  else if currentPrice > bin.price then
    { bin with
      currentTokenType := TokenType.quote
      currentAmount := if bin.initialTokenType = TokenType.base then
          bin.initialAmount * bin.price
        else bin.initialAmount
      currentValueInQuote := if bin.initialTokenType = TokenType.base then
          bin.initialAmount * bin.price
        else bin.initialAmount }
  else
    { bin with
      currentTokenType := TokenType.base
      currentAmount := if bin.initialTokenType = TokenType.quote then
          bin.initialAmount / bin.price
        else bin.initialAmount
      currentValueInQuote := (if bin.initialTokenType = TokenType.quote then
          bin.initialAmount / bin.price
        else bin.initialAmount) * currentPrice }

/-- One step of the analysis `reduce`: bins whose current amount is at most
the dust threshold are skipped; all other bins add their current value to the
total value and route their current amount and count by resulting type. -/
def analysisStep (acc : Analysis) (bin : SimulatedBin) : Analysis :=
  if dustThreshold < bin.currentAmount then
    if bin.currentTokenType = TokenType.base then
      { acc with
        totalValueInQuote := acc.totalValueInQuote + bin.currentValueInQuote
        totalBase := acc.totalBase + bin.currentAmount
        baseBins := acc.baseBins + 1 }
    else
      { acc with
        totalValueInQuote := acc.totalValueInQuote + bin.currentValueInQuote
        totalQuote := acc.totalQuote + bin.currentAmount
        quoteBins := acc.quoteBins + 1 }
  else acc

/-- Embedding of `runSimulation` (dlmm.ts): empty input short-circuits to an
all-zero analysis; otherwise every bin is simulated independently and the
analysis is folded over the simulated bins, starting from an accumulator whose
`totalBins` counts the input bins with positive initial amount. -/
def runSimulation (initialBins : List SimulatedBin) (currentPrice initialPrice : ℚ) :
    List SimulatedBin × Analysis :=
  if initialBins.isEmpty then
    ([], Analysis.mk 0 0 0 0 0 0)
  else
    ((initialBins.map (simulateBin currentPrice)),
      (initialBins.map (simulateBin currentPrice)).foldl analysisStep
        (Analysis.mk 0 0 0 ((initialBins.filter (fun b => 0 < b.initialAmount)).length) 0 0))

/-- Claim C10 (confirmed): on an empty initial bin list, `runSimulation`
returns an empty simulated bin list and an analysis whose six fields are all
exactly zero, for every current and initial price. -/
theorem runSimulation_empty (currentPrice initialPrice : ℚ) :
    runSimulation [] currentPrice initialPrice = ([], Analysis.mk 0 0 0 0 0 0) := rfl

/-- Closed-form characterization of the analysis fold. -/
theorem foldl_analysisStep (l : List SimulatedBin) (acc : Analysis) :
    l.foldl analysisStep acc = Analysis.mk
      (acc.totalValueInQuote +
        ((l.filter (fun b => dustThreshold < b.currentAmount)).map
          (fun b => b.currentValueInQuote)).sum)
      (acc.totalBase +
        ((l.filter (fun b => dustThreshold < b.currentAmount ∧
            b.currentTokenType = TokenType.base)).map (fun b => b.currentAmount)).sum)
      (acc.totalQuote +
        ((l.filter (fun b => dustThreshold < b.currentAmount ∧
            b.currentTokenType = TokenType.quote)).map (fun b => b.currentAmount)).sum)
      acc.totalBins
      (acc.baseBins +
        (l.filter (fun b => dustThreshold < b.currentAmount ∧
            b.currentTokenType = TokenType.base)).length)
      (acc.quoteBins +
        (l.filter (fun b => dustThreshold < b.currentAmount ∧
            b.currentTokenType = TokenType.quote)).length) := by
  induction l generalizing acc with
  | nil => simp
  | cons x xs ih =>
    rw [List.foldl_cons, ih]
    by_cases hd : dustThreshold < x.currentAmount
    · cases hx : x.currentTokenType with
      | base =>
        simp [analysisStep, hd, hx, List.filter_cons, Analysis.mk.injEq, add_assoc]
        omega
      | quote =>
        simp [analysisStep, hd, hx, List.filter_cons, Analysis.mk.injEq, add_assoc]
        omega
    · simp [analysisStep, hd, List.filter_cons]

/-- Claim C6 (confirmed): dust filtering in the analysis. For every input bin
list and current price, the analysis sums and counts range only over simulated
bins whose current amount exceeds the dust threshold `1e-12` — a bin at or
below the threshold contributes 0 to `totalBase`, `totalQuote`, `baseBins`,
`quoteBins` and `totalValueInQuote` — while `totalBins` is the count of input
bins with positive `initialAmount`, unaffected by dust filtering. -/
theorem analysis_dust_filtering (bins : List SimulatedBin) (currentPrice initialPrice : ℚ) :
    (runSimulation bins currentPrice initialPrice).2 = Analysis.mk
      (((bins.map (simulateBin currentPrice)).filter
          (fun b => dustThreshold < b.currentAmount)).map (fun b => b.currentValueInQuote)).sum
      (((bins.map (simulateBin currentPrice)).filter
          (fun b => dustThreshold < b.currentAmount ∧ b.currentTokenType = TokenType.base)).map
            (fun b => b.currentAmount)).sum
      (((bins.map (simulateBin currentPrice)).filter
          (fun b => dustThreshold < b.currentAmount ∧ b.currentTokenType = TokenType.quote)).map
            (fun b => b.currentAmount)).sum
      ((bins.filter (fun b => 0 < b.initialAmount)).length)
      (((bins.map (simulateBin currentPrice)).filter
          (fun b => dustThreshold < b.currentAmount ∧ b.currentTokenType = TokenType.base)).length)
      (((bins.map (simulateBin currentPrice)).filter
          (fun b => dustThreshold < b.currentAmount ∧ b.currentTokenType = TokenType.quote)).length) := by
  unfold runSimulation
  by_cases h : bins.isEmpty
  · rw [if_pos h]
    rw [List.isEmpty_iff] at h
    subst h
    simp
  · rw [if_neg h]
    rw [foldl_analysisStep]
    simp

/-! ### Decimal inference (`reverseEngineerDecimals`) -/

/-- The static token-decimals registry `TOKEN_DECIMALS_BY_ADDRESS`, modelled as
a partial map from contract address to decimal count. -/
def TOKEN_DECIMALS_BY_ADDRESS (address : String) : Option ℕ :=
  if address = "So11111111111111111111111111111111111111112" then some 9
  else if address = "EPjFWdd5AufqSSqeM2qN1xzybapC8G4wEGGkZwyTDt1v" then some 6
  else none

/-- Embedding of `getTokenDecimalsByAddress`: registry lookup with default. -/
def getTokenDecimalsByAddress (address : String) (defaultDecimals : ℕ) : ℕ :=
  (TOKEN_DECIMALS_BY_ADDRESS address).getD defaultDecimals

/-- Result record of `reverseEngineerDecimals`. -/
structure DecimalsResult where
  baseDecimals : ℕ
  quoteDecimals : ℕ
  applyDecimalAdjustment : Bool
deriving DecidableEq

/-- Candidate base decimals tested by `reverseEngineerDecimals`: the
registry/default value first, then (when the base mint is unknown) the window
`max(0, d-3) .. min(18, d+3)` skipping values already present. Truncated `ℕ`
subtraction realizes `Math.max(0, d - 3)`; the window values are pairwise
distinct, so only the collision with the initial element can occur. -/
def decimalsCandidates (mintX : String) : List ℕ :=
  [getTokenDecimalsByAddress mintX 9] ++
    (if (TOKEN_DECIMALS_BY_ADDRESS mintX).isNone then
      ((List.range (min 18 (getTokenDecimalsByAddress mintX 9 + 3) + 1 -
          (getTokenDecimalsByAddress mintX 9 - 3))).map
        (fun n => getTokenDecimalsByAddress mintX 9 - 3 + n)).filter
        (fun d => d ∉ [getTokenDecimalsByAddress mintX 9])
    else [])

/-- Embedding of `reverseEngineerDecimals` (dlmm-sdk-wrapper): when both mints
are in the registry, return those decimals with adjustment enabled and perform
no search; otherwise run the bounded best-fit search over candidate base
decimals and both adjustment flags (each candidate tried with `true` first,
matching the source's inner loop order), scoring by absolute difference between
the API price and the reconstituted bin price, keeping the first strict
minimum; the initial accumulator is the default (9, adjustment on) with an
infinite best difference, modelled as `none`. -/
noncomputable def reverseEngineerDecimals (apiPrice binStep : ℚ) (mintX mintY : String) :
    DecimalsResult :=
  if (TOKEN_DECIMALS_BY_ADDRESS mintX).isSome ∧ (TOKEN_DECIMALS_BY_ADDRESS mintY).isSome then
    DecimalsResult.mk (getTokenDecimalsByAddress mintX 9) (getTokenDecimalsByAddress mintY 6) true
  else
    DecimalsResult.mk
      (((decimalsCandidates mintX).flatMap (fun d => [(d, true), (d, false)])).foldl
        (fun (acc : ℕ × Bool × Option ℚ) t =>
          match acc.2.2 with
          | none => (t.1, t.2,
              some |apiPrice - getPriceFromBinId
                (getBinIdFromPrice apiPrice binStep t.1 (getTokenDecimalsByAddress mintY 6) t.2)
                binStep t.1 (getTokenDecimalsByAddress mintY 6) t.2|)
          | some s =>
              if |apiPrice - getPriceFromBinId
                  (getBinIdFromPrice apiPrice binStep t.1 (getTokenDecimalsByAddress mintY 6) t.2)
                  binStep t.1 (getTokenDecimalsByAddress mintY 6) t.2| < s then
                (t.1, t.2,
                  some |apiPrice - getPriceFromBinId
                    (getBinIdFromPrice apiPrice binStep t.1 (getTokenDecimalsByAddress mintY 6) t.2)
                    binStep t.1 (getTokenDecimalsByAddress mintY 6) t.2|)
              else acc)
        ((9 : ℕ), true, (none : Option ℚ))).1
      (getTokenDecimalsByAddress mintY 6)
      (((decimalsCandidates mintX).flatMap (fun d => [(d, true), (d, false)])).foldl
        (fun (acc : ℕ × Bool × Option ℚ) t =>
          match acc.2.2 with
          | none => (t.1, t.2,
              some |apiPrice - getPriceFromBinId
                (getBinIdFromPrice apiPrice binStep t.1 (getTokenDecimalsByAddress mintY 6) t.2)
                binStep t.1 (getTokenDecimalsByAddress mintY 6) t.2|)
          | some s =>
              if |apiPrice - getPriceFromBinId
                  (getBinIdFromPrice apiPrice binStep t.1 (getTokenDecimalsByAddress mintY 6) t.2)
                  binStep t.1 (getTokenDecimalsByAddress mintY 6) t.2| < s then
                (t.1, t.2,
                  some |apiPrice - getPriceFromBinId
                    (getBinIdFromPrice apiPrice binStep t.1 (getTokenDecimalsByAddress mintY 6) t.2)
                    binStep t.1 (getTokenDecimalsByAddress mintY 6) t.2|)
              else acc)
        ((9 : ℕ), true, (none : Option ℚ))).2.1

/-- Claim C9 (confirmed): registry short-circuit of decimal inference. When
both token addresses are present in the static registry,
`reverseEngineerDecimals` returns exactly those registry decimals with the
adjustment flag enabled, taking the branch that performs no candidate search,
for every observed price and bin step. -/
theorem reverseEngineerDecimals_registry (apiPrice binStep : ℚ) (mintX mintY : String)
    (dx dy : ℕ) (hx : TOKEN_DECIMALS_BY_ADDRESS mintX = some dx)
    (hy : TOKEN_DECIMALS_BY_ADDRESS mintY = some dy) :
    reverseEngineerDecimals apiPrice binStep mintX mintY = DecimalsResult.mk dx dy true := by
  unfold reverseEngineerDecimals
  rw [if_pos ⟨by rw [hx]; rfl, by rw [hy]; rfl⟩]
  unfold getTokenDecimalsByAddress
  rw [hx, hy]
  rfl

/-- Witness for the registry short-circuit theorem at the SOL/USDC addresses. -/
theorem reverseEngineerDecimals_registry_witness :
    TOKEN_DECIMALS_BY_ADDRESS "So11111111111111111111111111111111111111112" = some 9 ∧
    TOKEN_DECIMALS_BY_ADDRESS "EPjFWdd5AufqSSqeM2qN1xzybapC8G4wEGGkZwyTDt1v" = some 6 ∧
    reverseEngineerDecimals 100 25 "So11111111111111111111111111111111111111112"
      "EPjFWdd5AufqSSqeM2qN1xzybapC8G4wEGGkZwyTDt1v" = DecimalsResult.mk 9 6 true :=
  ⟨by rfl, by rfl,
    reverseEngineerDecimals_registry 100 25 _ _ 9 6 (by rfl) (by rfl)⟩

/-! ### Structural lemmas for `getInitialBins` -/

/-- Base decimals with the source default applied. -/
def bdOf (p : SimulationParams) : ℕ := p.baseDecimals.getD 9

/-- Quote decimals with the source default applied. -/
def qdOf (p : SimulationParams) : ℕ := p.quoteDecimals.getD 6

/-- Adjustment flag with the source default applied. -/
def adjOf (p : SimulationParams) : Bool := p.applyDecimalAdjustment.getD true

/-- The id of the lower bound price. -/
noncomputable def minIdOf (p : SimulationParams) : ℤ :=
  getBinIdFromPrice p.lowerPrice p.binStep (bdOf p) (qdOf p) (adjOf p)

/-- The id of the upper bound price. -/
noncomputable def maxIdOf (p : SimulationParams) : ℤ :=
  getBinIdFromPrice p.upperPrice p.binStep (bdOf p) (qdOf p) (adjOf p)

/-- The id of the initial price (the active bin). -/
noncomputable def activeIdOf (p : SimulationParams) : ℤ :=
  getBinIdFromPrice p.initialPrice p.binStep (bdOf p) (qdOf p) (adjOf p)

/-- The validation predicate of `getInitialBins`, in positive form. -/
def paramsValid (p : SimulationParams) : Prop :=
  0 < p.lowerPrice ∧ p.lowerPrice < p.upperPrice ∧ 0 < p.binStep ∧ 0 < p.initialPrice

theorem getInitialBins_eq {p : SimulationParams} (hv : paramsValid p) :
    getInitialBins p = buildBins p.strategy p.binStep p.baseAmount p.quoteAmount
      p.initialPrice (bdOf p) (qdOf p) (adjOf p) (minIdOf p) (maxIdOf p) (activeIdOf p) := by
  obtain ⟨h1, h2, h3, h4⟩ := hv
  unfold getInitialBins
  rw [if_neg (by push_neg; exact ⟨h1, h2, h3, h4⟩)]
  rfl

/-- The combined per-bin normalization function; `normalizeBins` is a single
map of this function with the two sums taken over the input bins. -/
def normMap (strategy : Strategy) (bA qA s q : ℚ) (b : SimulatedBin) : SimulatedBin :=
  setDisplay
    (if 0 < qA ∧ 0 < q then
      applyQuoteNorm (qA / q) (if 0 < bA ∧ 0 < s then applyBaseNorm strategy (bA / s) b else b)
    else (if 0 < bA ∧ 0 < s then applyBaseNorm strategy (bA / s) b else b))

theorem normalizeBins_eq_map (strategy : Strategy) (bA qA : ℚ) (bins : List SimulatedBin) :
    normalizeBins strategy bA qA bins =
      bins.map (normMap strategy bA qA (baseSumOf bins) (quoteSumOf bins)) := by
  unfold normalizeBins normMap
  by_cases h1 : 0 < bA ∧ 0 < baseSumOf bins <;>
    by_cases h2 : 0 < qA ∧ 0 < quoteSumOf bins <;>
      simp [h1, h2, List.map_map, Function.comp_def]

theorem applyBaseNorm_id (s : Strategy) (f : ℚ) (b : SimulatedBin) :
    (applyBaseNorm s f b).id = b.id := by
  unfold applyBaseNorm; split <;> rfl

theorem applyBaseNorm_price (s : Strategy) (f : ℚ) (b : SimulatedBin) :
    (applyBaseNorm s f b).price = b.price := by
  unfold applyBaseNorm; split <;> rfl

theorem applyBaseNorm_type (s : Strategy) (f : ℚ) (b : SimulatedBin) :
    (applyBaseNorm s f b).initialTokenType = b.initialTokenType := by
  unfold applyBaseNorm; split <;> rfl

theorem applyBaseNorm_amount (s : Strategy) (f : ℚ) (b : SimulatedBin) :
    (applyBaseNorm s f b).initialAmount =
      if b.initialTokenType = TokenType.base then b.initialAmount * f else b.initialAmount := by
  unfold applyBaseNorm
  by_cases h : b.initialTokenType = TokenType.base <;> simp [h]

theorem applyQuoteNorm_id (f : ℚ) (b : SimulatedBin) : (applyQuoteNorm f b).id = b.id := by
  unfold applyQuoteNorm; split <;> rfl

theorem applyQuoteNorm_price (f : ℚ) (b : SimulatedBin) :
    (applyQuoteNorm f b).price = b.price := by
  unfold applyQuoteNorm; split <;> rfl

theorem applyQuoteNorm_type (f : ℚ) (b : SimulatedBin) :
    (applyQuoteNorm f b).initialTokenType = b.initialTokenType := by
  unfold applyQuoteNorm; split <;> rfl

theorem applyQuoteNorm_amount (f : ℚ) (b : SimulatedBin) :
    (applyQuoteNorm f b).initialAmount =
      if b.initialTokenType = TokenType.quote then b.initialAmount * f else b.initialAmount := by
  unfold applyQuoteNorm
  by_cases h : b.initialTokenType = TokenType.quote <;> simp [h]

theorem normMap_id (strategy : Strategy) (bA qA s q : ℚ) (b : SimulatedBin) :
    (normMap strategy bA qA s q b).id = b.id := by
  unfold normMap setDisplay
  split <;> simp [applyQuoteNorm_id, applyBaseNorm_id] <;> split <;>
    simp [applyBaseNorm_id]

theorem normMap_price (strategy : Strategy) (bA qA s q : ℚ) (b : SimulatedBin) :
    (normMap strategy bA qA s q b).price = b.price := by
  unfold normMap setDisplay
  split <;> simp [applyQuoteNorm_price, applyBaseNorm_price] <;> split <;>
    simp [applyBaseNorm_price]

theorem normMap_type (strategy : Strategy) (bA qA s q : ℚ) (b : SimulatedBin) :
    (normMap strategy bA qA s q b).initialTokenType = b.initialTokenType := by
  unfold normMap setDisplay
  split <;> simp [applyQuoteNorm_type, applyBaseNorm_type] <;> split <;>
    simp [applyBaseNorm_type]

theorem normMap_amount (strategy : Strategy) (bA qA s q : ℚ) (b : SimulatedBin) :
    (normMap strategy bA qA s q b).initialAmount =
      if b.initialTokenType = TokenType.base then
        (if 0 < bA ∧ 0 < s then b.initialAmount * (bA / s) else b.initialAmount)
      else
        (if 0 < qA ∧ 0 < q then b.initialAmount * (qA / q) else b.initialAmount) := by
  cases htt : b.initialTokenType with
  | base =>
    by_cases h1 : 0 < bA ∧ 0 < s <;> by_cases h2 : 0 < qA ∧ 0 < q <;>
      simp [normMap, setDisplay, applyQuoteNorm, applyBaseNorm, htt, h1, h2]
  | quote =>
    by_cases h1 : 0 < bA ∧ 0 < s <;> by_cases h2 : 0 < qA ∧ 0 < q <;>
      simp [normMap, setDisplay, applyQuoteNorm, applyBaseNorm, htt, h1, h2]

/-- The positive scaling factor connecting a bin's amount before and after
normalization. -/
theorem normMap_amount_factor (strategy : Strategy) (bA qA s q : ℚ) (b : SimulatedBin) :
    ∃ c : ℚ, 0 < c ∧ (normMap strategy bA qA s q b).initialAmount = b.initialAmount * c := by
  rw [normMap_amount]
  by_cases hb : b.initialTokenType = TokenType.base
  · rw [if_pos hb]
    by_cases h1 : 0 < bA ∧ 0 < s
    · exact ⟨bA / s, div_pos h1.1 h1.2, by rw [if_pos h1]⟩
    · exact ⟨1, one_pos, by rw [if_neg h1, mul_one]⟩
  · rw [if_neg hb]
    by_cases h2 : 0 < qA ∧ 0 < q
    · exact ⟨qA / q, div_pos h2.1 h2.2, by rw [if_pos h2]⟩
    · exact ⟨1, one_pos, by rw [if_neg h2, mul_one]⟩

theorem baseSumOf_map_normMap (strategy : Strategy) (bA qA s q : ℚ)
    (bins : List SimulatedBin) :
    baseSumOf (bins.map (normMap strategy bA qA s q)) =
      baseSumOf bins * (if 0 < bA ∧ 0 < s then bA / s else 1) := by
  unfold baseSumOf
  rw [List.map_map]
  rw [show ((fun b => if b.initialTokenType = TokenType.base then b.initialAmount else 0) ∘
      normMap strategy bA qA s q) = (fun b =>
        (if b.initialTokenType = TokenType.base then b.initialAmount else 0) *
          (if 0 < bA ∧ 0 < s then bA / s else 1)) from ?_]
  · rw [List.sum_map_mul_right]
  · funext b
    simp only [Function.comp_apply, normMap_type, normMap_amount]
    by_cases hb : b.initialTokenType = TokenType.base
    · rw [if_pos hb, if_pos hb, if_pos hb]
      by_cases h1 : 0 < bA ∧ 0 < s
      · rw [if_pos h1, if_pos h1]
      · rw [if_neg h1, if_neg h1, mul_one]
    · simp [hb]

theorem quoteSumOf_map_normMap (strategy : Strategy) (bA qA s q : ℚ)
    (bins : List SimulatedBin) :
    quoteSumOf (bins.map (normMap strategy bA qA s q)) =
      quoteSumOf bins * (if 0 < qA ∧ 0 < q then qA / q else 1) := by
  unfold quoteSumOf
  rw [List.map_map]
  rw [show ((fun b => if b.initialTokenType = TokenType.quote then b.initialAmount else 0) ∘
      normMap strategy bA qA s q) = (fun b =>
        (if b.initialTokenType = TokenType.quote then b.initialAmount else 0) *
          (if 0 < qA ∧ 0 < q then qA / q else 1)) from ?_]
  · rw [List.sum_map_mul_right]
  · funext b
    simp only [Function.comp_apply, normMap_type, normMap_amount]
    by_cases hb : b.initialTokenType = TokenType.quote
    · have hnb : ¬ b.initialTokenType = TokenType.base := by
        rw [hb]; exact fun hc => TokenType.noConfusion hc
      rw [if_pos hb, if_pos hb, if_neg hnb]
      by_cases h2 : 0 < qA ∧ 0 < q
      · rw [if_pos h2, if_pos h2]
      · rw [if_neg h2, if_neg h2, mul_one]
    · have hba : b.initialTokenType = TokenType.base := by
        cases htt : b.initialTokenType with
        | base => rfl
        | quote => exact absurd htt hb
      simp [hb, hba]

theorem baseSumOf_perm {l₁ l₂ : List SimulatedBin} (h : l₁.Perm l₂) :
    baseSumOf l₁ = baseSumOf l₂ :=
  (h.map _).sum_eq

theorem quoteSumOf_perm {l₁ l₂ : List SimulatedBin} (h : l₁.Perm l₂) :
    quoteSumOf l₁ = quoteSumOf l₂ :=
  (h.map _).sum_eq

theorem amountsFor_nonneg {strategy : Strategy} {binStep bA qA ip : ℚ} {bd qd : ℕ}
    {adj : Bool} {minId maxId active : ℤ} (hs : 0 < binStep) (hq0 : 0 ≤ qA) (hip : 0 < ip) :
    ∀ e ∈ amountsFor strategy binStep bA qA ip bd qd adj minId maxId active,
      0 ≤ e.2.baseAmount ∧ 0 ≤ e.2.quoteAmount ∧ 0 ≤ e.2.valueInQuote := by
  intro e he
  exact weightsToAmounts_nonneg hq0 hip (fun id => getPriceFromBinId_pos hs id bd qd adj)
    (fun id => weightLookup_nonneg strategy minId maxId active id) e he

theorem mkBin_amount_nonneg {strategy : Strategy} {binStep bA qA ip : ℚ} {bd qd : ℕ}
    {adj : Bool} {minId maxId active : ℤ} (hs : 0 < binStep) (hq0 : 0 ≤ qA) (hip : 0 < ip)
    (id : ℤ) :
    0 ≤ (mkBin binStep bd qd adj active
      (amountsFor strategy binStep bA qA ip bd qd adj minId maxId active) id).initialAmount := by
  cases hl : (amountsFor strategy binStep bA qA ip bd qd adj minId maxId active).lookup id with
  | none => simp only [mkBin, hl, Option.getD_none]; split <;> norm_num
  | some e =>
    have hnn := amountsFor_nonneg hs hq0 hip (id, e) (mem_of_lookup_eq_some hl)
    simp only [mkBin, hl, Option.getD_some]
    split
    · exact hnn.2.1
    · exact hnn.1

theorem mem_rawBins_iff {strategy : Strategy} {binStep bA qA ip : ℚ} {bd qd : ℕ}
    {adj : Bool} {minId maxId active : ℤ} {b : SimulatedBin} :
    b ∈ rawBins strategy binStep bA qA ip bd qd adj minId maxId active ↔
      ∃ id : ℤ, (minId ≤ id ∧ id ≤ maxId) ∧
        b = mkBin binStep bd qd adj active
          (amountsFor strategy binStep bA qA ip bd qd adj minId maxId active) id := by
  unfold rawBins
  rw [List.mem_map]
  constructor
  · rintro ⟨id, hid, rfl⟩
    exact ⟨id, mem_binRangeList.mp hid, rfl⟩
  · rintro ⟨id, hid, rfl⟩
    exact ⟨id, mem_binRangeList.mpr hid, rfl⟩

theorem mem_buildBins_iff {strategy : Strategy} {binStep bA qA ip : ℚ} {bd qd : ℕ}
    {adj : Bool} {minId maxId active : ℤ} {b : SimulatedBin} :
    b ∈ buildBins strategy binStep bA qA ip bd qd adj minId maxId active ↔
      ∃ b0 ∈ rawBins strategy binStep bA qA ip bd qd adj minId maxId active,
        b = normMap strategy bA qA
          (baseSumOf (rawBins strategy binStep bA qA ip bd qd adj minId maxId active))
          (quoteSumOf (rawBins strategy binStep bA qA ip bd qd adj minId maxId active)) b0 := by
  unfold buildBins
  rw [List.mem_insertionSort, normalizeBins_eq_map, List.mem_map]
  constructor
  · rintro ⟨b0, hb0, rfl⟩
    exact ⟨b0, hb0, rfl⟩
  · rintro ⟨b0, hb0, rfl⟩
    exact ⟨b0, hb0, rfl⟩

/-- Shape of every bin returned by `buildBins`: in-range id, price derived
from the id, token type split at the active bin, nonnegative amount. -/
theorem shape_buildBins {strategy : Strategy} {binStep bA qA ip : ℚ} {bd qd : ℕ}
    {adj : Bool} {minId maxId active : ℤ} (hs : 0 < binStep) (hq0 : 0 ≤ qA) (hip : 0 < ip) :
    ∀ b ∈ buildBins strategy binStep bA qA ip bd qd adj minId maxId active,
      (minId ≤ b.id ∧ b.id ≤ maxId) ∧
      b.price = getPriceFromBinId b.id binStep bd qd adj ∧
      b.initialTokenType = (if b.id ≤ active then TokenType.quote else TokenType.base) ∧
      0 ≤ b.initialAmount := by
  intro b hb
  obtain ⟨b0, hb0, rfl⟩ := mem_buildBins_iff.mp hb
  obtain ⟨id, hid, rfl⟩ := mem_rawBins_iff.mp hb0
  obtain ⟨c, hc, hcf⟩ := normMap_amount_factor strategy bA qA
    (baseSumOf (rawBins strategy binStep bA qA ip bd qd adj minId maxId active))
    (quoteSumOf (rawBins strategy binStep bA qA ip bd qd adj minId maxId active))
    (mkBin binStep bd qd adj active
      (amountsFor strategy binStep bA qA ip bd qd adj minId maxId active) id)
  refine ⟨?_, ?_, ?_, ?_⟩
  · rw [normMap_id]; exact hid
  · rw [normMap_price, normMap_id]; rfl
  · rw [normMap_type, normMap_id]; rfl
  · rw [hcf]
    exact mul_nonneg (mkBin_amount_nonneg hs hq0 hip id) (le_of_lt hc)

theorem baseSumOf_buildBins (strategy : Strategy) (binStep bA qA ip : ℚ) (bd qd : ℕ)
    (adj : Bool) (minId maxId active : ℤ) :
    baseSumOf (buildBins strategy binStep bA qA ip bd qd adj minId maxId active) =
      baseSumOf (rawBins strategy binStep bA qA ip bd qd adj minId maxId active) *
        (if 0 < bA ∧ 0 < baseSumOf (rawBins strategy binStep bA qA ip bd qd adj minId maxId active)
          then bA / baseSumOf (rawBins strategy binStep bA qA ip bd qd adj minId maxId active)
          else 1) := by
  unfold buildBins
  rw [baseSumOf_perm (List.perm_insertionSort _ _), normalizeBins_eq_map,
    baseSumOf_map_normMap]

theorem quoteSumOf_buildBins (strategy : Strategy) (binStep bA qA ip : ℚ) (bd qd : ℕ)
    (adj : Bool) (minId maxId active : ℤ) :
    quoteSumOf (buildBins strategy binStep bA qA ip bd qd adj minId maxId active) =
      quoteSumOf (rawBins strategy binStep bA qA ip bd qd adj minId maxId active) *
        (if 0 < qA ∧ 0 < quoteSumOf (rawBins strategy binStep bA qA ip bd qd adj minId maxId active)
          then qA / quoteSumOf (rawBins strategy binStep bA qA ip bd qd adj minId maxId active)
          else 1) := by
  unfold buildBins
  rw [quoteSumOf_perm (List.perm_insertionSort _ _), normalizeBins_eq_map,
    quoteSumOf_map_normMap]

theorem relTol_pos : 0 < relTol := by norm_num [relTol]

theorem totalQuoteWeight_pos {s : Strategy} {minB maxB active id₀ : ℤ}
    (h1 : minB ≤ id₀) (h2 : id₀ ≤ maxB) (h3 : id₀ ≤ active) :
    0 < totalQuoteWeightOf (calculateStrategyWeights s minB maxB active) active := by
  have hidk : id₀ ∈ quoteKeysOf (calculateStrategyWeights s minB maxB active) active :=
    mem_quoteKeysOf.mpr ⟨mem_weights_fst h1 h2, h3⟩
  have h1w : 1 ≤ weightLookup (calculateStrategyWeights s minB maxB active) id₀ :=
    one_le_weightLookup h1 h2
  have hle := List.single_le_sum
    (l := (quoteKeysOf (calculateStrategyWeights s minB maxB active) active).map
      (weightLookup (calculateStrategyWeights s minB maxB active)))
    (fun x hx => by
      obtain ⟨j, -, rfl⟩ := List.mem_map.mp hx
      exact weightLookup_nonneg s minB maxB active j)
    _ (List.mem_map_of_mem _ hidk)
  unfold totalQuoteWeightOf
  linarith

theorem totalBaseWeight_pos {s : Strategy} {minB maxB active id₀ : ℤ}
    (h1 : minB ≤ id₀) (h2 : id₀ ≤ maxB) (h3 : active < id₀) :
    0 < totalBaseWeightOf (calculateStrategyWeights s minB maxB active) active := by
  have hidk : id₀ ∈ baseKeysOf (calculateStrategyWeights s minB maxB active) active :=
    mem_baseKeysOf.mpr ⟨mem_weights_fst h1 h2, h3⟩
  have h1w : 1 ≤ weightLookup (calculateStrategyWeights s minB maxB active) id₀ :=
    one_le_weightLookup h1 h2
  have hle := List.single_le_sum
    (l := (baseKeysOf (calculateStrategyWeights s minB maxB active) active).map
      (weightLookup (calculateStrategyWeights s minB maxB active)))
    (fun x hx => by
      obtain ⟨j, -, rfl⟩ := List.mem_map.mp hx
      exact weightLookup_nonneg s minB maxB active j)
    _ (List.mem_map_of_mem _ hidk)
  unfold totalBaseWeightOf
  linarith

/-- A quote-side raw bin with a positive requested quote amount holds a
positive amount. -/
theorem mkBin_quote_amount_pos {strategy : Strategy} {binStep bA qA ip : ℚ} {bd qd : ℕ}
    {adj : Bool} {minId maxId active id₀ : ℤ} (hqA : 0 < qA)
    (h1 : minId ≤ id₀) (h2 : id₀ ≤ maxId) (h3 : id₀ ≤ active) :
    0 < (mkBin binStep bd qd adj active
      (amountsFor strategy binStep bA qA ip bd qd adj minId maxId active) id₀).initialAmount := by
  have hmemw : id₀ ∈ (calculateStrategyWeights strategy minId maxId active).map Prod.fst :=
    mem_weights_fst h1 h2
  have htqw : 0 < totalQuoteWeightOf (calculateStrategyWeights strategy minId maxId active)
      active := totalQuoteWeight_pos h1 h2 h3
  have hw1 : 1 ≤ weightLookup (calculateStrategyWeights strategy minId maxId active) id₀ :=
    one_le_weightLookup h1 h2
  have hlk := lookup_amounts_quote hmemw h3 bA qA
    (fun id => getPriceFromBinId id binStep bd qd adj) strategy ip
  simp only [mkBin, amountsFor, hlk, Option.getD_some, if_pos h3,
    if_pos (⟨htqw, hqA⟩ : _ ∧ _)]
  exact div_pos (mul_pos hqA (lt_of_lt_of_le one_pos hw1)) htqw

/-- A base-side raw bin with a positive requested base amount holds a positive
amount under the bid-ask and curve strategies. -/
theorem mkBin_base_amount_pos_other {strategy : Strategy} {binStep bA qA ip : ℚ} {bd qd : ℕ}
    {adj : Bool} {minId maxId active id₀ : ℤ} (hs : 0 < binStep) (hbA : 0 < bA) (hip : 0 < ip)
    (hstrat : strategy ≠ Strategy.spot)
    (h1 : minId ≤ id₀) (h2 : id₀ ≤ maxId) (h3 : active < id₀) :
    0 < (mkBin binStep bd qd adj active
      (amountsFor strategy binStep bA qA ip bd qd adj minId maxId active) id₀).initialAmount := by
  have hmemw : id₀ ∈ (calculateStrategyWeights strategy minId maxId active).map Prod.fst :=
    mem_weights_fst h1 h2
  have htbw : 0 < totalBaseWeightOf (calculateStrategyWeights strategy minId maxId active)
      active := totalBaseWeight_pos h1 h2 h3
  have hw1 : 1 ≤ weightLookup (calculateStrategyWeights strategy minId maxId active) id₀ :=
    one_le_weightLookup h1 h2
  have hlk := lookup_amounts_base_other hmemw h3 bA qA
    (fun id => getPriceFromBinId id binStep bd qd adj) hstrat ip
  simp only [mkBin, amountsFor, hlk, Option.getD_some, if_neg (not_le.mpr h3),
    if_pos (⟨htbw, hbA⟩ : _ ∧ _)]
  exact div_pos
    (mul_pos (mul_pos hbA hip) (div_pos (lt_of_lt_of_le one_pos hw1) htbw))
    (getPriceFromBinId_pos hs id₀ bd qd adj)

theorem rawBins_amount_nonneg {strategy : Strategy} {binStep bA qA ip : ℚ} {bd qd : ℕ}
    {adj : Bool} {minId maxId active : ℤ} (hs : 0 < binStep) (hq0 : 0 ≤ qA) (hip : 0 < ip) :
    ∀ b ∈ rawBins strategy binStep bA qA ip bd qd adj minId maxId active,
      0 ≤ b.initialAmount := by
  intro b hb
  obtain ⟨id, -, rfl⟩ := mem_rawBins_iff.mp hb
  exact mkBin_amount_nonneg hs hq0 hip id

theorem baseSumOf_pos_of_mem {bins : List SimulatedBin}
    (hnn : ∀ b ∈ bins, 0 ≤ b.initialAmount) {b0 : SimulatedBin} (hb0 : b0 ∈ bins)
    (ht : b0.initialTokenType = TokenType.base) (hpos : 0 < b0.initialAmount) :
    0 < baseSumOf bins := by
  unfold baseSumOf
  have hf : (if b0.initialTokenType = TokenType.base then b0.initialAmount else 0) ∈
      bins.map (fun b => if b.initialTokenType = TokenType.base then b.initialAmount else 0) :=
    List.mem_map_of_mem _ hb0
  rw [if_pos ht] at hf
  have hle := List.single_le_sum (fun x hx => by
    obtain ⟨b, hb, rfl⟩ := List.mem_map.mp hx
    split
    · exact hnn b hb
    · exact le_refl 0) _ hf
  linarith

theorem quoteSumOf_pos_of_mem {bins : List SimulatedBin}
    (hnn : ∀ b ∈ bins, 0 ≤ b.initialAmount) {b0 : SimulatedBin} (hb0 : b0 ∈ bins)
    (ht : b0.initialTokenType = TokenType.quote) (hpos : 0 < b0.initialAmount) :
    0 < quoteSumOf bins := by
  unfold quoteSumOf
  have hf : (if b0.initialTokenType = TokenType.quote then b0.initialAmount else 0) ∈
      bins.map (fun b => if b.initialTokenType = TokenType.quote then b.initialAmount else 0) :=
    List.mem_map_of_mem _ hb0
  rw [if_pos ht] at hf
  have hle := List.single_le_sum (fun x hx => by
    obtain ⟨b, hb, rfl⟩ := List.mem_map.mp hx
    split
    · exact hnn b hb
    · exact le_refl 0) _ hf
  linarith

/-- Claim C1 (corrected): mass conservation of `getInitialBins`. For every
parameter record passing validation with nonnegative quote amount: when
`baseAmount > 0` and the returned list contains at least one base-typed bin
**with positive initial amount**, the sum of `initialAmount` over base-typed
bins equals `baseAmount` within relative tolerance `1e-9` (the exact model
gives exact equality); symmetrically, when `quoteAmount > 0` and at least one
quote-typed bin exists, the quote-side sum equals `quoteAmount` within the
same tolerance. The positivity strengthening on the base side is forced by
the spot strategy with zero quote amount, where base bins exist but all carry
amount 0 and no normalization occurs. -/
theorem mass_conservation_amended (p : SimulationParams) (hv : paramsValid p)
    (hq0 : 0 ≤ p.quoteAmount) :
    (0 < p.baseAmount →
      (∃ b ∈ getInitialBins p, b.initialTokenType = TokenType.base ∧ 0 < b.initialAmount) →
      |baseSumOf (getInitialBins p) - p.baseAmount| ≤ relTol * p.baseAmount) ∧
    (0 < p.quoteAmount →
      (∃ b ∈ getInitialBins p, b.initialTokenType = TokenType.quote) →
      |quoteSumOf (getInitialBins p) - p.quoteAmount| ≤ relTol * p.quoteAmount) := by
  obtain ⟨hlp, hlu, hsp, hip⟩ := hv
  rw [getInitialBins_eq ⟨hlp, hlu, hsp, hip⟩]
  constructor
  · rintro hbA ⟨b, hb, htype, hpos⟩
    obtain ⟨b0, hb0, rfl⟩ := mem_buildBins_iff.mp hb
    rw [normMap_type] at htype
    obtain ⟨c, hc, hcf⟩ := normMap_amount_factor p.strategy p.baseAmount p.quoteAmount
      (baseSumOf (rawBins p.strategy p.binStep p.baseAmount p.quoteAmount p.initialPrice
        (bdOf p) (qdOf p) (adjOf p) (minIdOf p) (maxIdOf p) (activeIdOf p)))
      (quoteSumOf (rawBins p.strategy p.binStep p.baseAmount p.quoteAmount p.initialPrice
        (bdOf p) (qdOf p) (adjOf p) (minIdOf p) (maxIdOf p) (activeIdOf p))) b0
    rw [hcf] at hpos
    have hb0pos : 0 < b0.initialAmount := by
      rcases mul_pos_iff.mp hpos with ⟨h, -⟩ | ⟨-, hneg⟩
      · exact h
      · linarith
    have hsum : 0 < baseSumOf (rawBins p.strategy p.binStep p.baseAmount p.quoteAmount
        p.initialPrice (bdOf p) (qdOf p) (adjOf p) (minIdOf p) (maxIdOf p) (activeIdOf p)) :=
      baseSumOf_pos_of_mem (rawBins_amount_nonneg hsp hq0 hip) hb0 htype hb0pos
    rw [baseSumOf_buildBins, if_pos ⟨hbA, hsum⟩, mul_comm,
      div_mul_cancel₀ _ (ne_of_gt hsum), sub_self, abs_zero]
    exact le_of_lt (mul_pos relTol_pos hbA)
  · rintro hqA ⟨b, hb, htype⟩
    obtain ⟨b0, hb0, rfl⟩ := mem_buildBins_iff.mp hb
    rw [normMap_type] at htype
    obtain ⟨id₀, hid, rfl⟩ := mem_rawBins_iff.mp hb0
    have hid3 : id₀ ≤ activeIdOf p := by
      by_contra hgt
      push_neg at hgt
      have hbase : (mkBin p.binStep (bdOf p) (qdOf p) (adjOf p) (activeIdOf p)
          (amountsFor p.strategy p.binStep p.baseAmount p.quoteAmount p.initialPrice
            (bdOf p) (qdOf p) (adjOf p) (minIdOf p) (maxIdOf p) (activeIdOf p))
          id₀).initialTokenType = TokenType.base := by
        simp only [mkBin, if_neg (not_le.mpr hgt)]
      rw [hbase] at htype
      exact TokenType.noConfusion htype
    have hqpos : 0 < (mkBin p.binStep (bdOf p) (qdOf p) (adjOf p) (activeIdOf p)
        (amountsFor p.strategy p.binStep p.baseAmount p.quoteAmount p.initialPrice
          (bdOf p) (qdOf p) (adjOf p) (minIdOf p) (maxIdOf p) (activeIdOf p))
        id₀).initialAmount :=
      mkBin_quote_amount_pos hqA hid.1 hid.2 hid3
    have hsum : 0 < quoteSumOf (rawBins p.strategy p.binStep p.baseAmount p.quoteAmount
        p.initialPrice (bdOf p) (qdOf p) (adjOf p) (minIdOf p) (maxIdOf p) (activeIdOf p)) :=
      quoteSumOf_pos_of_mem (rawBins_amount_nonneg hsp hq0 hip) hb0 htype hqpos
    rw [quoteSumOf_buildBins, if_pos ⟨hqA, hsum⟩, mul_comm,
      div_mul_cancel₀ _ (ne_of_gt hsum), sub_self, abs_zero]
    exact le_of_lt (mul_pos relTol_pos hqA)

/-- Forward existence: every in-range id yields a bin in `buildBins` with that
id, the derived price, the type split at the active bin, and an amount that is
a positive multiple of the corresponding raw bin amount. -/
theorem exists_bin_buildBins (strategy : Strategy) (binStep bA qA ip : ℚ) (bd qd : ℕ)
    (adj : Bool) (minId maxId active : ℤ) (id₀ : ℤ) (h1 : minId ≤ id₀) (h2 : id₀ ≤ maxId) :
    ∃ b ∈ buildBins strategy binStep bA qA ip bd qd adj minId maxId active,
      b.id = id₀ ∧
      b.price = getPriceFromBinId id₀ binStep bd qd adj ∧
      b.initialTokenType = (if id₀ ≤ active then TokenType.quote else TokenType.base) ∧
      ∃ c : ℚ, 0 < c ∧ b.initialAmount =
        (mkBin binStep bd qd adj active
          (amountsFor strategy binStep bA qA ip bd qd adj minId maxId active) id₀).initialAmount
          * c := by
  refine ⟨normMap strategy bA qA
    (baseSumOf (rawBins strategy binStep bA qA ip bd qd adj minId maxId active))
    (quoteSumOf (rawBins strategy binStep bA qA ip bd qd adj minId maxId active))
    (mkBin binStep bd qd adj active
      (amountsFor strategy binStep bA qA ip bd qd adj minId maxId active) id₀),
    ?_, ?_, ?_, ?_, ?_⟩
  · exact mem_buildBins_iff.mpr
      ⟨_, mem_rawBins_iff.mpr ⟨id₀, ⟨h1, h2⟩, rfl⟩, rfl⟩
  · rw [normMap_id]; rfl
  · rw [normMap_price]; rfl
  · rw [normMap_type]; rfl
  · exact normMap_amount_factor _ _ _ _ _ _

/-! ### Concrete inputs used by counterexamples and witnesses

All use `binStep = 10000` (basis 2) and `applyDecimalAdjustment = false`, so
that bin prices are powers of two and the three ids can be pinned exactly. -/

/-- Spot strategy with `quoteAmount = 0`: valid parameters whose base bins all
carry amount 0. -/
def cexSpotNoQuote : SimulationParams :=
  { binStep := 10000, initialPrice := 2, baseAmount := 1, quoteAmount := 0,
    lowerPrice := 1, upperPrice := 4, strategy := Strategy.spot,
    baseDecimals := none, quoteDecimals := none, applyDecimalAdjustment := some false }

/-- Well-behaved bid-ask parameters (both sides populated). -/
def cexGood : SimulationParams :=
  { binStep := 10000, initialPrice := 2, baseAmount := 1, quoteAmount := 12,
    lowerPrice := 1, upperPrice := 4, strategy := Strategy.bidAsk,
    baseDecimals := none, quoteDecimals := none, applyDecimalAdjustment := some false }

/-- Initial price 3 strictly below its own (rounded-up) bin price 4: the
active bin flips type under an identity simulation. -/
def cexActivePrice : SimulationParams :=
  { binStep := 10000, initialPrice := 3, baseAmount := 1, quoteAmount := 12,
    lowerPrice := 1, upperPrice := 8, strategy := Strategy.spot,
    baseDecimals := none, quoteDecimals := none, applyDecimalAdjustment := some false }

/-- Initial price 5 strictly above its bin price 4: identity simulation holds. -/
def cexIdentity : SimulationParams :=
  { binStep := 10000, initialPrice := 5, baseAmount := 1, quoteAmount := 12,
    lowerPrice := 1, upperPrice := 8, strategy := Strategy.bidAsk,
    baseDecimals := none, quoteDecimals := none, applyDecimalAdjustment := some false }

theorem getBinIdFromPrice_concrete (p : ℚ) (k : ℤ) (hp : 0 < p)
    (h1 : (2 : ℚ) ^ (2 * k - 1) ≤ p ^ (2 : ℕ)) (h2 : p ^ (2 : ℕ) < (2 : ℚ) ^ (2 * k + 1)) :
    getBinIdFromPrice p 10000 9 6 false = k + REFERENCE_BIN_ID := by
  have hb2 : binBasis 10000 = 2 := by norm_num [binBasis]
  have hl : lamportOf p 9 6 false = p := by simp [lamportOf]
  refine getBinIdFromPrice_eq hp (by norm_num) 9 6 false k ?_ ?_
  · rw [hb2, hl]; exact h1
  · rw [hb2, hl]; exact h2

theorem binId_of_one : getBinIdFromPrice 1 10000 9 6 false = REFERENCE_BIN_ID := by
  have := getBinIdFromPrice_concrete 1 0 (by norm_num) (by norm_num) (by norm_num)
  omega

theorem binId_of_two : getBinIdFromPrice 2 10000 9 6 false = REFERENCE_BIN_ID + 1 := by
  have := getBinIdFromPrice_concrete 2 1 (by norm_num) (by norm_num) (by norm_num)
  omega

theorem binId_of_three : getBinIdFromPrice 3 10000 9 6 false = REFERENCE_BIN_ID + 2 := by
  have := getBinIdFromPrice_concrete 3 2 (by norm_num) (by norm_num) (by norm_num)
  omega

theorem binId_of_four : getBinIdFromPrice 4 10000 9 6 false = REFERENCE_BIN_ID + 2 := by
  have := getBinIdFromPrice_concrete 4 2 (by norm_num) (by norm_num) (by norm_num)
  omega

theorem binId_of_five : getBinIdFromPrice 5 10000 9 6 false = REFERENCE_BIN_ID + 2 := by
  have := getBinIdFromPrice_concrete 5 2 (by norm_num) (by norm_num) (by norm_num)
  omega

theorem binId_of_eight : getBinIdFromPrice 8 10000 9 6 false = REFERENCE_BIN_ID + 3 := by
  have := getBinIdFromPrice_concrete 8 3 (by norm_num) (by norm_num) (by norm_num)
  omega

theorem cexSpotNoQuote_valid : paramsValid cexSpotNoQuote := by
  refine ⟨by norm_num [cexSpotNoQuote], by norm_num [cexSpotNoQuote],
    by norm_num [cexSpotNoQuote], by norm_num [cexSpotNoQuote]⟩

theorem getInitialBins_cexSpotNoQuote :
    getInitialBins cexSpotNoQuote = buildBins Strategy.spot 10000 1 0 2 9 6 false
      REFERENCE_BIN_ID (REFERENCE_BIN_ID + 2) (REFERENCE_BIN_ID + 1) := by
  rw [getInitialBins_eq cexSpotNoQuote_valid]
  show buildBins Strategy.spot 10000 1 0 2 9 6 false
    (getBinIdFromPrice 1 10000 9 6 false) (getBinIdFromPrice 4 10000 9 6 false)
    (getBinIdFromPrice 2 10000 9 6 false) = _
  rw [binId_of_one, binId_of_four, binId_of_two]

/-- Under the spot strategy with zero requested quote amount, every amount in
the amounts map is zero: the quote branch is skipped outright and the base
branch distributes the constant value `0 / quoteBins.length = 0`. -/
theorem amountsFor_zero_spot {binStep bA ip : ℚ} {bd qd : ℕ} {adj : Bool}
    {minId maxId active : ℤ} :
    ∀ e ∈ amountsFor Strategy.spot binStep bA 0 ip bd qd adj minId maxId active,
      e.2.baseAmount = 0 ∧ e.2.quoteAmount = 0 := by
  intro e he
  unfold amountsFor weightsToAmounts at he
  rw [List.mem_append] at he
  rcases he with he | he
  · unfold quoteEntriesOf at he
    rw [if_neg (by rintro ⟨-, h⟩; exact lt_irrefl 0 h)] at he
    obtain ⟨id, -, rfl⟩ := List.mem_map.mp he
    exact ⟨rfl, rfl⟩
  · unfold baseEntriesOf at he
    split at he
    · have hcv : constantValueOf (calculateStrategyWeights Strategy.spot minId maxId active)
          active 0 = 0 := by
        unfold constantValueOf
        split
        · exact zero_div _
        · rfl
      obtain ⟨id, -, rfl⟩ := List.mem_map.mp he
      refine ⟨?_, rfl⟩
      dsimp only
      rw [hcv, zero_div]
    · obtain ⟨id, -, rfl⟩ := List.mem_map.mp he
      exact ⟨rfl, rfl⟩

theorem rawBins_amounts_zero_spot {binStep bA ip : ℚ} {bd qd : ℕ} {adj : Bool}
    {minId maxId active : ℤ} :
    ∀ b ∈ rawBins Strategy.spot binStep bA 0 ip bd qd adj minId maxId active,
      b.initialAmount = 0 := by
  intro b hb
  obtain ⟨id, -, rfl⟩ := mem_rawBins_iff.mp hb
  cases hl : (amountsFor Strategy.spot binStep bA 0 ip bd qd adj minId maxId active).lookup id
    with
  | none => simp only [mkBin, hl, Option.getD_none]; split <;> rfl
  | some e =>
    have hz := amountsFor_zero_spot (id, e) (mem_of_lookup_eq_some hl)
    simp only [mkBin, hl, Option.getD_some]
    split
    · exact hz.2
    · exact hz.1

theorem baseSumOf_buildBins_spot_qa0 {binStep bA ip : ℚ} {bd qd : ℕ} {adj : Bool}
    {minId maxId active : ℤ} :
    baseSumOf (buildBins Strategy.spot binStep bA 0 ip bd qd adj minId maxId active) = 0 := by
  have hraw : baseSumOf (rawBins Strategy.spot binStep bA 0 ip bd qd adj minId maxId active)
      = 0 := by
    unfold baseSumOf
    refine List.sum_eq_zero ?_
    intro x hx
    obtain ⟨b, hb, rfl⟩ := List.mem_map.mp hx
    rw [rawBins_amounts_zero_spot b hb]
    split <;> rfl
  rw [baseSumOf_buildBins, hraw, zero_mul]

/-- Claim C1 counterexample: for the valid parameters `cexSpotNoQuote`
(spot strategy, `baseAmount = 1 > 0`, `quoteAmount = 0`), the returned list
contains a base-typed bin, yet the sum of `initialAmount` over base-typed bins
is 0, which is not within relative tolerance `1e-9` of `baseAmount = 1`. -/
theorem mass_conservation_counterexample :
    paramsValid cexSpotNoQuote ∧ 0 < cexSpotNoQuote.baseAmount ∧
    (∃ b ∈ getInitialBins cexSpotNoQuote, b.initialTokenType = TokenType.base) ∧
    ¬ |baseSumOf (getInitialBins cexSpotNoQuote) - cexSpotNoQuote.baseAmount| ≤
        relTol * cexSpotNoQuote.baseAmount := by
  refine ⟨cexSpotNoQuote_valid, by norm_num [cexSpotNoQuote], ?_, ?_⟩
  · rw [getInitialBins_cexSpotNoQuote]
    obtain ⟨b, hb, -, -, htype, -⟩ := exists_bin_buildBins Strategy.spot
      10000 1 0 2 9 6 false REFERENCE_BIN_ID (REFERENCE_BIN_ID + 2)
      (REFERENCE_BIN_ID + 1) (REFERENCE_BIN_ID + 2) (by omega) (by omega)
    refine ⟨b, hb, ?_⟩
    rw [htype, if_neg (by omega)]
  · rw [getInitialBins_cexSpotNoQuote, baseSumOf_buildBins_spot_qa0]
    norm_num [cexSpotNoQuote, relTol]

theorem cexGood_valid : paramsValid cexGood := by
  refine ⟨by norm_num [cexGood], by norm_num [cexGood], by norm_num [cexGood],
    by norm_num [cexGood]⟩

theorem getInitialBins_cexGood :
    getInitialBins cexGood = buildBins Strategy.bidAsk 10000 1 12 2 9 6 false
      REFERENCE_BIN_ID (REFERENCE_BIN_ID + 2) (REFERENCE_BIN_ID + 1) := by
  rw [getInitialBins_eq cexGood_valid]
  show buildBins Strategy.bidAsk 10000 1 12 2 9 6 false
    (getBinIdFromPrice 1 10000 9 6 false) (getBinIdFromPrice 4 10000 9 6 false)
    (getBinIdFromPrice 2 10000 9 6 false) = _
  rw [binId_of_one, binId_of_four, binId_of_two]

/-- At `cexGood` both sides of the mass-conservation theorem are non-vacuous:
a base-typed bin with positive amount exists. -/
theorem cexGood_has_base_bin :
    ∃ b ∈ getInitialBins cexGood, b.initialTokenType = TokenType.base ∧
      0 < b.initialAmount := by
  rw [getInitialBins_cexGood]
  obtain ⟨b, hb, -, -, htype, c, hc, hcf⟩ := exists_bin_buildBins
    Strategy.bidAsk 10000 1 12 2 9 6 false REFERENCE_BIN_ID
    (REFERENCE_BIN_ID + 2) (REFERENCE_BIN_ID + 1)
    (REFERENCE_BIN_ID + 2) (by omega) (by omega)
  refine ⟨b, hb, by rw [htype, if_neg (by omega)], ?_⟩
  rw [hcf]
  refine mul_pos (mkBin_base_amount_pos_other (by norm_num) (by norm_num) (by norm_num)
    (fun hc' => Strategy.noConfusion hc') (by omega) (by omega) (by omega)) hc

/-- At `cexGood` a quote-typed bin exists. -/
theorem cexGood_has_quote_bin :
    ∃ b ∈ getInitialBins cexGood, b.initialTokenType = TokenType.quote := by
  rw [getInitialBins_cexGood]
  obtain ⟨b, hb, -, -, htype, -⟩ := exists_bin_buildBins
    Strategy.bidAsk 10000 1 12 2 9 6 false REFERENCE_BIN_ID
    (REFERENCE_BIN_ID + 2) (REFERENCE_BIN_ID + 1)
    REFERENCE_BIN_ID (by omega) (by omega)
  exact ⟨b, hb, by rw [htype, if_pos (by omega)]⟩

/-- Witness for the amended mass-conservation theorem at `cexGood`. -/
theorem mass_conservation_amended_witness :
    paramsValid cexGood ∧ (0 : ℚ) ≤ cexGood.quoteAmount ∧
    ((0 < cexGood.baseAmount →
      (∃ b ∈ getInitialBins cexGood, b.initialTokenType = TokenType.base ∧
        0 < b.initialAmount) →
      |baseSumOf (getInitialBins cexGood) - cexGood.baseAmount| ≤
        relTol * cexGood.baseAmount) ∧
    (0 < cexGood.quoteAmount →
      (∃ b ∈ getInitialBins cexGood, b.initialTokenType = TokenType.quote) →
      |quoteSumOf (getInitialBins cexGood) - cexGood.quoteAmount| ≤
        relTol * cexGood.quoteAmount)) :=
  ⟨cexGood_valid, by norm_num [cexGood],
    mass_conservation_amended cexGood cexGood_valid (by norm_num [cexGood])⟩

theorem runSimulation_fst (l : List SimulatedBin) (cp ip : ℚ) :
    (runSimulation l cp ip).1 = l.map (simulateBin cp) := by
  unfold runSimulation
  split
  · rename_i h
    rw [List.isEmpty_iff] at h
    subst h
    rfl
  · rfl

/-- Claim C2 (corrected): identity simulation. For valid parameters with
nonnegative quote amount, *provided the initial price strictly exceeds the
price of its own (active) bin*, running the simulation at
`currentPrice = initialPrice` reproduces every bin's initial token type and
amount. The proviso is forced: `getBinIdFromPrice` rounds to the nearest bin,
so the initial price can land strictly below the active bin's price, in which
case the active bin (initially quote-typed) is converted to base. -/
theorem identity_simulation_amended (p : SimulationParams) (hv : paramsValid p)
    (hq0 : 0 ≤ p.quoteAmount)
    (hactive : getPriceFromBinId (activeIdOf p) p.binStep (bdOf p) (qdOf p) (adjOf p) <
      p.initialPrice) :
    (runSimulation (getInitialBins p) p.initialPrice p.initialPrice).1.map
        (fun b => (b.currentTokenType, b.currentAmount)) =
      (getInitialBins p).map (fun b => (b.initialTokenType, b.initialAmount)) := by
  obtain ⟨hlp, hlu, hsp, hip⟩ := hv
  rw [runSimulation_fst, List.map_map]
  refine List.map_congr_left ?_
  intro b hb
  rw [getInitialBins_eq ⟨hlp, hlu, hsp, hip⟩] at hb
  obtain ⟨⟨hbmin, hbmax⟩, hbprice, hbtype, hbamt⟩ := shape_buildBins hsp hq0 hip b hb
  simp only [Function.comp_apply]
  by_cases hz : b.initialAmount ≤ 0
  · have hzero : b.initialAmount = 0 := le_antisymm hz hbamt
    simp [simulateBin, hz, hzero]
  · by_cases hidle : b.id ≤ activeIdOf p
    · have htq : b.initialTokenType = TokenType.quote := by rw [hbtype, if_pos hidle]
      have hlt : b.price < p.initialPrice := by
        rcases lt_or_eq_of_le hidle with hlt' | heq
        · rw [hbprice]
          exact getPriceFromBinId_lt_of_lt hip hsp (bdOf p) (qdOf p) (adjOf p) hlt'
        · rw [hbprice, heq]
          exact hactive
      simp [simulateBin, hz, show p.initialPrice > b.price from hlt, htq]
    · push_neg at hidle
      have htb : b.initialTokenType = TokenType.base := by
        rw [hbtype, if_neg (not_le.mpr hidle)]
      have hgt : p.initialPrice < b.price := by
        rw [hbprice]
        exact lt_getPriceFromBinId_of_gt hip hsp (bdOf p) (qdOf p) (adjOf p) hidle
      simp [simulateBin, hz, not_lt.mpr (le_of_lt hgt), htb]

theorem price_of_ref_plus_two :
    getPriceFromBinId (REFERENCE_BIN_ID + 2) 10000 9 6 false = 4 := by
  norm_num [getPriceFromBinId, binBasis]

theorem cexActivePrice_valid : paramsValid cexActivePrice := by
  refine ⟨by norm_num [cexActivePrice], by norm_num [cexActivePrice],
    by norm_num [cexActivePrice], by norm_num [cexActivePrice]⟩

theorem getInitialBins_cexActivePrice :
    getInitialBins cexActivePrice = buildBins Strategy.spot 10000 1 12 3 9 6 false
      REFERENCE_BIN_ID (REFERENCE_BIN_ID + 3) (REFERENCE_BIN_ID + 2) := by
  rw [getInitialBins_eq cexActivePrice_valid]
  show buildBins Strategy.spot 10000 1 12 3 9 6 false
    (getBinIdFromPrice 1 10000 9 6 false) (getBinIdFromPrice 8 10000 9 6 false)
    (getBinIdFromPrice 3 10000 9 6 false) = _
  rw [binId_of_one, binId_of_eight, binId_of_three]

/-- The active bin of `cexActivePrice` is quote-typed with positive amount and
price 4, strictly above the initial price 3. -/
theorem cexActivePrice_active_bin :
    ∃ b ∈ getInitialBins cexActivePrice, b.initialTokenType = TokenType.quote ∧
      0 < b.initialAmount ∧ b.price = 4 := by
  rw [getInitialBins_cexActivePrice]
  obtain ⟨b, hb, -, hprice, htype, c, hc, hcf⟩ := exists_bin_buildBins
    Strategy.spot 10000 1 12 3 9 6 false REFERENCE_BIN_ID
    (REFERENCE_BIN_ID + 3) (REFERENCE_BIN_ID + 2)
    (REFERENCE_BIN_ID + 2) (by omega) (by omega)
  refine ⟨b, hb, by rw [htype, if_pos (by omega)], ?_, by rw [hprice, price_of_ref_plus_two]⟩
  rw [hcf]
  exact mul_pos (mkBin_quote_amount_pos (by norm_num) (by omega) (by omega) (by omega)) hc

/-- Claim C2 counterexample: at `cexActivePrice` (initial price 3, active bin
price 4), `runSimulation(bins, 3, 3)` does not reproduce the initial token
types and amounts — the active bin's quote holding is converted to base. -/
theorem identity_simulation_counterexample :
    paramsValid cexActivePrice ∧
    ¬ ((runSimulation (getInitialBins cexActivePrice) cexActivePrice.initialPrice
          cexActivePrice.initialPrice).1.map (fun b => (b.currentTokenType, b.currentAmount)) =
        (getInitialBins cexActivePrice).map (fun b => (b.initialTokenType, b.initialAmount))) := by
  refine ⟨cexActivePrice_valid, ?_⟩
  intro h
  rw [runSimulation_fst, List.map_map] at h
  obtain ⟨b, hb, htype, hamt, hprice⟩ := cexActivePrice_active_bin
  have hpoint := List.map_inj_left.mp h b hb
  simp only [Function.comp_apply, Prod.mk.injEq] at hpoint
  have hnz : ¬ b.initialAmount ≤ 0 := not_le.mpr hamt
  have hnotgt : ¬ (cexActivePrice.initialPrice > b.price) := by
    rw [hprice]
    norm_num [cexActivePrice]
  have htype_eq := hpoint.1
  rw [simulateBin, if_neg hnz, if_neg hnotgt, htype] at htype_eq
  exact TokenType.noConfusion htype_eq

theorem cexIdentity_valid : paramsValid cexIdentity := by
  refine ⟨by norm_num [cexIdentity], by norm_num [cexIdentity],
    by norm_num [cexIdentity], by norm_num [cexIdentity]⟩

theorem cexIdentity_active_below : getPriceFromBinId (activeIdOf cexIdentity)
    cexIdentity.binStep (bdOf cexIdentity) (qdOf cexIdentity) (adjOf cexIdentity) <
      cexIdentity.initialPrice := by
  show getPriceFromBinId (getBinIdFromPrice 5 10000 9 6 false) 10000 9 6 false < 5
  rw [binId_of_five, price_of_ref_plus_two]
  norm_num

/-- Witness for the amended identity-simulation theorem at `cexIdentity`. -/
theorem identity_simulation_amended_witness :
    paramsValid cexIdentity ∧ (0 : ℚ) ≤ cexIdentity.quoteAmount ∧
    getPriceFromBinId (activeIdOf cexIdentity) cexIdentity.binStep (bdOf cexIdentity)
      (qdOf cexIdentity) (adjOf cexIdentity) < cexIdentity.initialPrice ∧
    ((runSimulation (getInitialBins cexIdentity) cexIdentity.initialPrice
        cexIdentity.initialPrice).1.map (fun b => (b.currentTokenType, b.currentAmount)) =
      (getInitialBins cexIdentity).map (fun b => (b.initialTokenType, b.initialAmount))) :=
  ⟨cexIdentity_valid, by norm_num [cexIdentity], cexIdentity_active_below,
    identity_simulation_amended cexIdentity cexIdentity_valid (by norm_num [cexIdentity])
      cexIdentity_active_below⟩

/-- Claim C7 (confirmed): input validation of `getInitialBins`. Whenever
`lowerPrice ≤ 0`, or `upperPrice ≤ lowerPrice`, or `binStep ≤ 0`, or
`initialPrice ≤ 0`, the function returns the empty bin list (and, being a
total function, raises no exception); for all other parameters it proceeds to
build bins — formalized as returning a nonempty list (the bin range always
contains at least one id since the lower id is at most the upper id). -/
theorem getInitialBins_validation (p : SimulationParams) :
    ((p.lowerPrice ≤ 0 ∨ p.upperPrice ≤ p.lowerPrice ∨ p.binStep ≤ 0 ∨
        p.initialPrice ≤ 0) → getInitialBins p = []) ∧
    (¬(p.lowerPrice ≤ 0 ∨ p.upperPrice ≤ p.lowerPrice ∨ p.binStep ≤ 0 ∨
        p.initialPrice ≤ 0) → getInitialBins p ≠ []) := by
  constructor
  · intro h
    unfold getInitialBins
    rw [if_pos h]
  · intro h
    push_neg at h
    obtain ⟨h1, h2, h3, h4⟩ := h
    rw [getInitialBins_eq ⟨h1, h2, h3, h4⟩]
    have hminmax : minIdOf p ≤ maxIdOf p :=
      getBinIdFromPrice_mono h3 h1 (le_of_lt h2) (bdOf p) (qdOf p) (adjOf p)
    intro hnil
    have hlen : (buildBins p.strategy p.binStep p.baseAmount p.quoteAmount p.initialPrice
        (bdOf p) (qdOf p) (adjOf p) (minIdOf p) (maxIdOf p) (activeIdOf p)).length =
        (binRangeList (minIdOf p) (maxIdOf p)).length := by
      unfold buildBins
      rw [List.length_insertionSort, normalizeBins_eq_map, List.length_map]
      unfold rawBins
      rw [List.length_map]
    have hzero : (binRangeList (minIdOf p) (maxIdOf p)).length = 0 := by
      rw [← hlen, hnil]
      rfl
    exact binRangeList_ne_nil hminmax (List.length_eq_zero.mp hzero)

/-- Instantiation of the validation theorem at a concrete parameter record. -/
theorem getInitialBins_validation_witness :
    ((cexSpotNoQuote.lowerPrice ≤ 0 ∨ cexSpotNoQuote.upperPrice ≤ cexSpotNoQuote.lowerPrice ∨
        cexSpotNoQuote.binStep ≤ 0 ∨ cexSpotNoQuote.initialPrice ≤ 0) →
      getInitialBins cexSpotNoQuote = []) ∧
    (¬(cexSpotNoQuote.lowerPrice ≤ 0 ∨ cexSpotNoQuote.upperPrice ≤ cexSpotNoQuote.lowerPrice ∨
        cexSpotNoQuote.binStep ≤ 0 ∨ cexSpotNoQuote.initialPrice ≤ 0) →
      getInitialBins cexSpotNoQuote ≠ []) :=
  getInitialBins_validation cexSpotNoQuote

end Meteora
